import Mathlib

/-!
Verification development for the `llm_index` analysis pipeline
(dependency-graph construction, complexity scoring, clustering,
LLM context-chunk optimization).

The Python sources are embedded shallowly:

* Python `dict`s become insertion-ordered association lists
  (`List (κ × ν)`); dictionary keys of a real run are distinct, which
  appears as `Nodup` hypotheses where a theorem needs it.
* Python `float` arithmetic is modelled over `ℚ`; Python `int` over
  `ℤ`/`ℕ`.  All claims treated here are structural (clamping, sums,
  orderings), not about rounding of binary floats.
* `sklearn.SpectralClustering.fit_predict` (clustering.py line 183) is an
  external black box that returns one integer label per node; it is
  modelled as an explicit parameter `spec : List String → ℕ → ℕ`
  (node list and node index to label).  Universally quantified theorems
  therefore cover whatever labelling the library produces — in fact the
  library is never consulted on a real run, because the built graph is
  provably edgeless, so `np.sum(adj_matrix) > 0` (line 176) always fails.
* The weighted similarity graph built by `_build_enhanced_graph` enters the
  downstream code only through its node set and its positive edge weights;
  it is modelled by the weight function `w : String → String → ℚ`
  (`0 < w a b` means the edge exists, mirroring that the code only adds
  edges with `weight > 0`, clustering.py line 98).  The builder itself is
  embedded as `buildEnhancedGraphW`, with `math.log2` and `math.log`
  passed as function parameters constrained only by properties true of
  the real logarithms (`log2 q ≤ 0` whenever `q ≤ 1`).
* `set` iteration order in CPython depends on the process hash seed; a
  `list(s)` conversion is modelled as an enumeration-order parameter
  applied to the insertion-ordered list of distinct elements.
-/

/-! Section: Generic list helpers -/

/-- Substring test on character lists: Python's `needle in hay` for strings. -/
def infixOf (needle : List Char) : List Char → Bool
  | [] => needle.isEmpty
  | c :: rest => needle.isPrefixOf (c :: rest) || infixOf needle rest

/-- Python's `needle in hay` on strings. -/
def strContains (hay needle : String) : Bool :=
  infixOf needle.toList hay.toList

/-- Fixed-size chunking `[xs[i:i+n] for i in range(0, len(xs), n)]`. -/
def chunkList (n : ℕ) (xs : List String) : List (List String) :=
  if h : n = 0 ∨ xs = [] then []
  else xs.take n :: chunkList n (xs.drop n)
termination_by xs.length
decreasing_by
  simp only [not_or] at h
  have hx : xs.length ≠ 0 := by
    intro hlen
    exact h.2 (List.eq_nil_of_length_eq_zero hlen)
  simp only [List.length_drop]
  omega

/-- One insertion into the insertion-ordered grouping produced by a
`defaultdict(list)` keyed by cluster label (clustering.py lines 189-191). -/
def insertLabeled : List (ℕ × List String) → String → ℕ → List (ℕ × List String)
  | [], x, l => [(l, [x])]
  | (l', xs) :: rest, x, l =>
      if l' = l then (l', xs ++ [x]) :: rest else (l', xs) :: insertLabeled rest x l

/-- Model of `clusters = defaultdict(list); for node, label in pairs: clusters[label].append(node);
list(clusters.values())` (clustering.py lines 189-193). -/
def groupByLabel (pairs : List (String × ℕ)) : List (List String) :=
  ((pairs.foldl (fun acc p => insertLabeled acc p.1 p.2) []).map Prod.snd)

/-! Section: Clustering engine (`EnhancedClusteringEngine`, clustering.py) -/

/-- Constructor arguments of `EnhancedClusteringEngine.__init__`. -/
structure ClusterConfig where
  max_cluster_size : ℕ
  min_cluster_size : ℕ
deriving Repr, DecidableEq

/-- Model of `_calculate_inter_cluster_connectivity` (clustering.py lines 334-348):
sum of weights of graph edges between the two clusters, divided by the
number of potential connections.  An edge exists iff its weight is
positive (see module header). -/
def interClusterConnectivity (w : String → String → ℚ) (c1 c2 : List String) : ℚ :=
  let total_weight :=
    (c1.map (fun n1 => ((c2.filter (fun n2 => decide (0 < w n1 n2))).map (fun n2 => w n1 n2)).sum)).sum
  let max_connections : ℚ := ((c1.length * c2.length : ℕ) : ℚ)
  if 0 < max_connections then total_weight / max_connections else 0

/-- The shared shape of the two best-index searches
(`_handle_small_cluster` lines 243-252, `_find_best_merge_target` lines
313-330): scan `l` with indices, a candidate index must pass `cand`
(returning its score), and it replaces the incumbent only with a strictly
greater score; the incumbent starts as `(-1, 0)`. -/
def bestIndexFold (cand : ℕ → List String → Option ℚ) (l : List (List String)) : ℤ × ℚ :=
  l.enum.foldl
    (fun acc p =>
      match cand p.1 p.2 with
      | some score => if acc.2 < score then ((p.1 : ℤ), score) else acc
      | none => acc)
    (-1, 0)

/-- Model of `existing[i].extend(s)` on an index into a list of clusters. -/
def extendAt (l : List (List String)) (i : ℕ) (s : List String) : List (List String) :=
  l.set i (l.getD i [] ++ s)

/-- Model of `_handle_small_cluster` (clustering.py lines 235-258).  The Python
function mutates `existing_clusters` in place and returns the leftover
list that the caller extends `optimized` with; the model returns the net
resulting `optimized` list. -/
def handleSmallCluster (cfg : ClusterConfig) (w : String → String → ℚ)
    (small : List String) (existing : List (List String)) : List (List String) :=
  if existing.isEmpty then existing ++ [small]
  else
    let best := bestIndexFold
      (fun _ c =>
        if c.length + small.length ≤ cfg.max_cluster_size then
          some (interClusterConnectivity w small c)
        else none)
      existing
    if 0 ≤ best.1 then extendAt existing best.1.toNat small
    else existing ++ [small]

/-- Model of `_find_best_merge_target` (clustering.py lines 309-332). -/
def findBestMergeTarget (cfg : ClusterConfig) (w : String → String → ℚ)
    (small : List String) (all : List (List String)) (exclude : ℕ) : ℤ :=
  (bestIndexFold
    (fun i c =>
      if i = exclude then none
      else if c.length + small.length ≤ cfg.max_cluster_size then
        let connectivity := interClusterConnectivity w small c
        let size_bonus : ℚ := if c.length < cfg.min_cluster_size then 1 else 0.5
        some (connectivity * size_bonus)
      else none)
    all).1

/-- One iteration of the merge loop of `_merge_small_clusters`
(clustering.py lines 299-305): read the (possibly already extended)
cluster at `i`, find a merge target, and on success extend the target and
pop index `i`. -/
def mergeStep (cfg : ClusterConfig) (w : String → String → ℚ)
    (merged : List (List String)) (i : ℕ) : List (List String) :=
  let small := merged.getD i []
  let t := findBestMergeTarget cfg w small merged i
  if 0 ≤ t then (extendAt merged t.toNat small).eraseIdx i
  else merged

/-- Model of `_merge_small_clusters` (clustering.py lines 288-307): indices of the
small clusters are computed once on the input list and then processed in
reverse order on the evolving list. -/
def mergeSmallClusters (cfg : ClusterConfig) (w : String → String → ℚ)
    (clusters : List (List String)) : List (List String) :=
  let small_idx :=
    (clusters.enum.filter (fun p => decide (p.2.length < cfg.min_cluster_size))).map Prod.fst
  if small_idx.isEmpty then clusters
  else small_idx.reverse.foldl (mergeStep cfg w) clusters

/-- Model of `n_clusters = min(max(2, n // self.max_cluster_size), 8)`
(clustering.py line 173). -/
def nClustersFor (cfg : ClusterConfig) (n : ℕ) : ℕ :=
  min (max 2 (n / cfg.max_cluster_size)) 8

/-- Model of `np.sum(adj_matrix) > 0` (clustering.py line 176): since every stored
edge weight is positive, the adjacency sum is positive iff some edge
exists among `nodes`. -/
def hasAnyEdge (w : String → String → ℚ) (nodes : List String) : Bool :=
  nodes.any (fun a => nodes.any (fun b => decide (0 < w a b)))

/-- The label vector used by `_spectral_clustering`: the library labels
when the graph has edges (line 183, modelled by `spec`), else
`np.arange(n) % n_clusters` (line 186). -/
def spectralLabels (cfg : ClusterConfig) (spec : List String → ℕ → ℕ)
    (w : String → String → ℚ) (nodes : List String) : List ℕ :=
  let n := nodes.length
  if hasAnyEdge w nodes then (List.range n).map (spec nodes)
  else (List.range n).map (fun i => i % nClustersFor cfg n)

/-- Model of `_spectral_clustering(G, files)` (clustering.py lines 153-197), where
`nodes` is `list(G.nodes())` of the graph passed in.  The internal
`except` branch (community-detection fallback) is covered by the theorems
that quantify over an arbitrary initial partition fed to
`_optimize_clusters`. -/
def spectralClustering (cfg : ClusterConfig) (spec : List String → ℕ → ℕ)
    (w : String → String → ℚ) (nodes files : List String) : List (List String) :=
  if files.length < 4 then [files]
  else groupByLabel (nodes.zip (spectralLabels cfg spec w nodes))

/-- Model of `_split_large_cluster` (clustering.py lines 260-286).  The `except`
branch performs the same fixed-size chunking as the
`len(sub_clusters) < n_splits` branch. -/
def splitLargeCluster (cfg : ClusterConfig) (spec : List String → ℕ → ℕ)
    (w : String → String → ℚ) (large : List String) : List (List String) :=
  if large.length ≤ cfg.max_cluster_size then [large]
  else
    let n_splits := (large.length + cfg.max_cluster_size - 1) / cfg.max_cluster_size
    let sub := spectralClustering cfg spec w large large
    if sub.length < n_splits then chunkList cfg.max_cluster_size large
    else sub

/-- Model of `_optimize_clusters` (clustering.py lines 214-233). -/
def optimizeClusters (cfg : ClusterConfig) (spec : List String → ℕ → ℕ)
    (w : String → String → ℚ) (clusters : List (List String)) : List (List String) :=
  let optimized := clusters.foldl
    (fun opt cluster =>
      if cluster.length ≤ cfg.max_cluster_size then
        if cfg.min_cluster_size ≤ cluster.length then opt ++ [cluster]
        else handleSmallCluster cfg w cluster opt
      else opt ++ splitLargeCluster cfg spec w cluster)
    []
  (mergeSmallClusters cfg w optimized).filter (fun c => !c.isEmpty)

/-- Model of `_fallback_clustering` (clustering.py lines 508-511). -/
def fallbackClustering (max_cluster_size : ℕ) (files : List String) : List (List String) :=
  chunkList max_cluster_size files

/-- Model of `EnhancedClusteringEngine.cluster_files` (clustering.py lines 25-65) on
its non-throwing path; the top-level `except` fallback is
`fallbackClustering`, treated separately by the theorems. -/
def cluster_files (cfg : ClusterConfig) (spec : List String → ℕ → ℕ)
    (w : String → String → ℚ) (dep_graph : List (String × List String)) : List (List String) :=
  if dep_graph.isEmpty then []
  else
    let files := dep_graph.map Prod.fst
    if files.length ≤ cfg.max_cluster_size then [files]
    else optimizeClusters cfg spec w (spectralClustering cfg spec w files files)

/-! Section: Multiset preservation through the clustering pipeline (for C1) -/

theorem flatten_extendAt_perm (l : List (List String)) (s : List String) :
    ∀ i, i < l.length → ((extendAt l i s).flatten).Perm (l.flatten ++ s) := by
  induction l with
  | nil => intro i hi; simp at hi
  | cons x rest ih =>
    intro i hi
    cases i with
    | zero =>
      simp only [extendAt, List.getD_cons_zero, List.set_cons_zero, List.flatten_cons,
        List.append_assoc]
      exact List.Perm.append_left x List.perm_append_comm
    | succ n =>
      have hn : n < rest.length := by simpa using hi
      have := ih n hn
      simp only [extendAt, List.getD_cons_succ, List.set_cons_succ, List.flatten_cons,
        List.append_assoc] at this ⊢
      exact List.Perm.append_left x this

theorem flatten_perm_getD_eraseIdx (l : List (List String)) :
    ∀ i, i < l.length → (l.flatten).Perm (l.getD i [] ++ (l.eraseIdx i).flatten) := by
  induction l with
  | nil => intro i hi; simp at hi
  | cons x rest ih =>
    intro i hi
    cases i with
    | zero => simp [List.flatten_cons]
    | succ n =>
      have hn : n < rest.length := by simpa using hi
      have h1 := ih n hn
      simp only [List.getD_cons_succ, List.eraseIdx_cons_succ, List.flatten_cons]
      have h2 : (x ++ rest.flatten).Perm
          (x ++ (rest.getD n [] ++ (rest.eraseIdx n).flatten)) :=
        List.Perm.append_left x h1
      refine h2.trans ?_
      rw [← List.append_assoc, ← List.append_assoc]
      exact List.Perm.append_right _ List.perm_append_comm

theorem foldl_best_step_spec (cand : ℕ → List String → Option ℚ) (l : List (List String)) :
    ∀ (ps : List (ℕ × List String)) (acc : ℤ × ℚ),
      (∀ p ∈ ps, p.1 < l.length ∧ l.getD p.1 [] = p.2) →
      (acc.1 = -1 ∨ ∃ i : ℕ, acc.1 = (i : ℤ) ∧ i < l.length ∧ cand i (l.getD i []) ≠ none) →
      ((ps.foldl
          (fun acc p =>
            match cand p.1 p.2 with
            | some score => if acc.2 < score then ((p.1 : ℤ), score) else acc
            | none => acc)
          acc).1 = -1 ∨
        ∃ i : ℕ, (ps.foldl
          (fun acc p =>
            match cand p.1 p.2 with
            | some score => if acc.2 < score then ((p.1 : ℤ), score) else acc
            | none => acc)
          acc).1 = (i : ℤ) ∧ i < l.length ∧ cand i (l.getD i []) ≠ none) := by
  intro ps
  induction ps with
  | nil => intro acc _ hacc; simpa using hacc
  | cons p ps ih =>
    intro acc hps hacc
    have hp := hps p (List.mem_cons_self _ _)
    have hps' : ∀ q ∈ ps, q.1 < l.length ∧ l.getD q.1 [] = q.2 :=
      fun q hq => hps q (List.mem_cons_of_mem _ hq)
    simp only [List.foldl_cons]
    apply ih _ hps'
    cases hc : cand p.1 p.2 with
    | none => simpa [hc] using hacc
    | some score =>
      by_cases hlt : acc.2 < score
      · simp only [hc, hlt, if_pos]
        right
        exact ⟨p.1, rfl, hp.1, by rw [hp.2, hc]; simp⟩
      · simpa [hc, hlt] using hacc

theorem bestIndexFold_spec (cand : ℕ → List String → Option ℚ) (l : List (List String))
    (h0 : 0 ≤ (bestIndexFold cand l).1) :
    ∃ i : ℕ, (bestIndexFold cand l).1 = (i : ℤ) ∧ i < l.length ∧ cand i (l.getD i []) ≠ none := by
  have henum : ∀ p ∈ l.enum, p.1 < l.length ∧ l.getD p.1 [] = p.2 := by
    intro p hp
    have := List.mem_enum_iff_get?.1 hp
    constructor
    · exact (List.get?_eq_some.1 this).1
    · rw [List.getD_eq_get?, this]; rfl
  have := foldl_best_step_spec cand l l.enum (-1, 0) henum (Or.inl rfl)
  rcases this with h | h
  · exfalso; rw [bestIndexFold] at h0; omega
  · exact h

theorem handleSmallCluster_flatten_perm (cfg : ClusterConfig) (w : String → String → ℚ)
    (small : List String) (existing : List (List String)) :
    ((handleSmallCluster cfg w small existing).flatten).Perm (existing.flatten ++ small) := by
  rw [handleSmallCluster]
  by_cases he : existing.isEmpty
  · simp [he]
  · simp only [he, Bool.false_eq_true, if_false]
    set cand : ℕ → List String → Option ℚ := fun _ c =>
      if c.length + small.length ≤ cfg.max_cluster_size then
        some (interClusterConnectivity w small c)
      else none with hcand
    by_cases h0 : 0 ≤ (bestIndexFold cand existing).1
    · obtain ⟨i, hi, hilen, _⟩ := bestIndexFold_spec cand existing h0
      simp only [h0, if_pos, hi, Int.toNat_natCast]
      exact flatten_extendAt_perm existing small i hilen
    · simp [h0]

theorem mergeStep_flatten_perm (cfg : ClusterConfig) (w : String → String → ℚ)
    (merged : List (List String)) (i : ℕ) :
    ((mergeStep cfg w merged i).flatten).Perm merged.flatten := by
  rw [mergeStep, findBestMergeTarget]
  set small := merged.getD i [] with hsmall
  set cand : ℕ → List String → Option ℚ := fun j c =>
    if j = i then none
    else if c.length + small.length ≤ cfg.max_cluster_size then
      let connectivity := interClusterConnectivity w small c
      let size_bonus : ℚ := if c.length < cfg.min_cluster_size then 1 else 0.5
      some (connectivity * size_bonus)
    else none with hcand
  by_cases h0 : 0 ≤ (bestIndexFold cand merged).1
  · obtain ⟨j, hj, hjlen, hjcand⟩ := bestIndexFold_spec cand merged h0
    have hji : j ≠ i := by
      intro hji
      apply hjcand
      simp [hcand, hji]
    simp only [h0, if_pos, hj, Int.toNat_natCast]
    by_cases hi : i < merged.length
    · have hlen : i < (extendAt merged j small).length := by
        simpa [extendAt, List.length_set] using hi
      have hA := flatten_extendAt_perm merged small j hjlen
      have hB := flatten_perm_getD_eraseIdx (extendAt merged j small) i hlen
      have hgetD : (extendAt merged j small).getD i [] = small := by
        rw [List.getD_eq_get?, extendAt, List.get?_set_ne _ _ hji, ← List.getD_eq_get?]
      rw [hgetD] at hB
      have hchain : (small ++ ((extendAt merged j small).eraseIdx i).flatten).Perm
          (small ++ merged.flatten) :=
        (hB.symm.trans hA).trans (List.perm_append_comm)
      exact (List.perm_append_left_iff small).1 hchain
    · push_neg at hi
      have hsnil : small = [] := by
        rw [hsmall, List.getD_eq_get?, List.get?_eq_none.2 hi]; rfl
      have herase : (extendAt merged j small).eraseIdx i = extendAt merged j small :=
        List.eraseIdx_of_length_le (by simpa [extendAt, List.length_set] using hi)
      rw [herase]
      have := flatten_extendAt_perm merged small j hjlen
      simpa [hsnil] using this
  · simp [h0]

theorem foldl_mergeStep_flatten_perm (cfg : ClusterConfig) (w : String → String → ℚ) :
    ∀ (idxs : List ℕ) (clusters : List (List String)),
      ((idxs.foldl (mergeStep cfg w) clusters).flatten).Perm clusters.flatten := by
  intro idxs
  induction idxs with
  | nil => intro clusters; simp
  | cons i is ih =>
    intro clusters
    simp only [List.foldl_cons]
    exact (ih (mergeStep cfg w clusters i)).trans (mergeStep_flatten_perm cfg w clusters i)

theorem mergeSmallClusters_flatten_perm (cfg : ClusterConfig) (w : String → String → ℚ)
    (clusters : List (List String)) :
    ((mergeSmallClusters cfg w clusters).flatten).Perm clusters.flatten := by
  rw [mergeSmallClusters]
  by_cases hs : ((clusters.enum.filter
      (fun p => decide (p.2.length < cfg.min_cluster_size))).map Prod.fst).isEmpty
  · simp [hs]
  · simp only [hs, Bool.false_eq_true, if_false]
    exact foldl_mergeStep_flatten_perm cfg w _ clusters

theorem insertLabeled_flatten_perm (acc : List (ℕ × List String)) (x : String) (l : ℕ) :
    (((insertLabeled acc x l).map Prod.snd).flatten).Perm
      ((acc.map Prod.snd).flatten ++ [x]) := by
  induction acc with
  | nil => simp [insertLabeled]
  | cons p rest ih =>
    obtain ⟨l', xs⟩ := p
    by_cases hl : l' = l
    · subst hl
      rw [insertLabeled, if_pos rfl]
      simp only [List.map_cons, List.flatten_cons, List.append_assoc]
      exact List.Perm.append_left xs List.perm_append_comm
    · rw [insertLabeled, if_neg hl]
      simp only [List.map_cons, List.flatten_cons, List.append_assoc]
      exact List.Perm.append_left xs ih

theorem groupFold_flatten_perm (pairs : List (String × ℕ)) :
    ∀ acc : List (ℕ × List String),
      (((pairs.foldl (fun acc p => insertLabeled acc p.1 p.2) acc).map Prod.snd).flatten).Perm
        ((acc.map Prod.snd).flatten ++ pairs.map Prod.fst) := by
  induction pairs with
  | nil => intro acc; simp
  | cons p ps ih =>
    intro acc
    simp only [List.foldl_cons, List.map_cons]
    refine (ih (insertLabeled acc p.1 p.2)).trans ?_
    have h1 := insertLabeled_flatten_perm acc p.1 p.2
    have := h1.append_right (ps.map Prod.fst)
    simpa [List.append_assoc] using this

theorem groupByLabel_flatten_perm (pairs : List (String × ℕ)) :
    ((groupByLabel pairs).flatten).Perm (pairs.map Prod.fst) := by
  have := groupFold_flatten_perm pairs []
  simpa [groupByLabel] using this

theorem chunkList_flatten_aux (n : ℕ) (hn : 0 < n) :
    ∀ (fuel : ℕ) (xs : List String), xs.length ≤ fuel → (chunkList n xs).flatten = xs := by
  intro fuel
  induction fuel with
  | zero =>
    intro xs hx
    have hxs : xs = [] := List.eq_nil_of_length_eq_zero (Nat.le_zero.1 hx)
    subst hxs
    rw [chunkList]
    simp
  | succ f ihf =>
    intro xs hx
    rw [chunkList]
    split
    · rename_i h
      rcases h with h | h
      · omega
      · simp [h]
    · rename_i h
      have hxs : xs ≠ [] := fun he => h (Or.inr he)
      have hpos : 0 < xs.length := List.length_pos.2 hxs
      simp only [List.flatten_cons]
      rw [ihf (xs.drop n) (by simp only [List.length_drop]; omega), List.take_append_drop]

theorem chunkList_flatten (n : ℕ) (hn : 0 < n) (xs : List String) :
    (chunkList n xs).flatten = xs :=
  chunkList_flatten_aux n hn xs.length xs le_rfl

theorem spectralLabels_length (cfg : ClusterConfig) (spec : List String → ℕ → ℕ)
    (w : String → String → ℚ) (nodes : List String) :
    (spectralLabels cfg spec w nodes).length = nodes.length := by
  rw [spectralLabels]
  split <;> simp

theorem spectralClustering_flatten_perm (cfg : ClusterConfig) (spec : List String → ℕ → ℕ)
    (w : String → String → ℚ) (l : List String) :
    ((spectralClustering cfg spec w l l).flatten).Perm l := by
  rw [spectralClustering]
  split
  · simp
  · refine (groupByLabel_flatten_perm _).trans ?_
    have hlen : l.length ≤ (spectralLabels cfg spec w l).length := by
      rw [spectralLabels_length]
    rw [List.map_fst_zip l _ hlen]

theorem splitLargeCluster_flatten_perm (cfg : ClusterConfig) (spec : List String → ℕ → ℕ)
    (w : String → String → ℚ) (large : List String) (hmax : 0 < cfg.max_cluster_size) :
    ((splitLargeCluster cfg spec w large).flatten).Perm large := by
  simp only [splitLargeCluster]
  split
  · simp
  · split
    · rw [chunkList_flatten cfg.max_cluster_size hmax]
    · exact spectralClustering_flatten_perm cfg spec w large

theorem optimizeFold_flatten_perm (cfg : ClusterConfig) (spec : List String → ℕ → ℕ)
    (w : String → String → ℚ) (hmax : 0 < cfg.max_cluster_size) :
    ∀ (cs : List (List String)) (opt : List (List String)),
      ((cs.foldl
          (fun opt cluster =>
            if cluster.length ≤ cfg.max_cluster_size then
              if cfg.min_cluster_size ≤ cluster.length then opt ++ [cluster]
              else handleSmallCluster cfg w cluster opt
            else opt ++ splitLargeCluster cfg spec w cluster)
          opt).flatten).Perm (opt.flatten ++ cs.flatten) := by
  intro cs
  induction cs with
  | nil => intro opt; simp
  | cons c cs ih =>
    intro opt
    simp only [List.foldl_cons, List.flatten_cons]
    have hstep : ((if c.length ≤ cfg.max_cluster_size then
        if cfg.min_cluster_size ≤ c.length then opt ++ [c]
        else handleSmallCluster cfg w c opt
      else opt ++ splitLargeCluster cfg spec w c).flatten).Perm (opt.flatten ++ c) := by
      split
      · split
        · simp
        · exact handleSmallCluster_flatten_perm cfg w c opt
      · rw [List.flatten_append]
        exact List.Perm.append_left _ (splitLargeCluster_flatten_perm cfg spec w c hmax)
    refine (ih _).trans ?_
    have := hstep.append_right cs.flatten
    simpa [List.append_assoc] using this

theorem flatten_filter_nonempty (l : List (List String)) :
    (l.filter (fun c => !c.isEmpty)).flatten = l.flatten := by
  induction l with
  | nil => rfl
  | cons c rest ih =>
    by_cases hc : c.isEmpty
    · have hcnil : c = [] := List.isEmpty_iff.1 hc
      simp [List.filter_cons, hc, hcnil, ih]
    · simp [List.filter_cons, hc, ih]

theorem optimizeClusters_flatten_perm (cfg : ClusterConfig) (spec : List String → ℕ → ℕ)
    (w : String → String → ℚ) (clusters : List (List String))
    (hmax : 0 < cfg.max_cluster_size) :
    ((optimizeClusters cfg spec w clusters).flatten).Perm clusters.flatten := by
  rw [optimizeClusters, flatten_filter_nonempty]
  refine (mergeSmallClusters_flatten_perm cfg w _).trans ?_
  have := optimizeFold_flatten_perm cfg spec w hmax clusters []
  simpa using this

/-! Section: Size-bound lemmas for the clustering pipeline (for C2) -/

theorem chunkList_sizes_aux (n : ℕ) :
    ∀ (fuel : ℕ) (xs : List String), xs.length ≤ fuel →
      ∀ c ∈ chunkList n xs, c.length ≤ n := by
  intro fuel
  induction fuel with
  | zero =>
    intro xs hx c hc
    have hxs : xs = [] := List.eq_nil_of_length_eq_zero (Nat.le_zero.1 hx)
    subst hxs
    rw [chunkList] at hc
    simp at hc
  | succ f ihf =>
    intro xs hx c hc
    rw [chunkList] at hc
    split at hc
    · simp at hc
    · rename_i h
      simp only [not_or] at h
      have hxs : xs ≠ [] := h.2
      have hpos : 0 < xs.length := List.length_pos.2 hxs
      rcases List.mem_cons.1 hc with rfl | hc'
      · simpa using List.length_take_le n xs
      · exact ihf (xs.drop n) (by simp only [List.length_drop]; omega) c hc'

theorem chunkList_sizes (n : ℕ) (xs : List String) :
    ∀ c ∈ chunkList n xs, c.length ≤ n :=
  chunkList_sizes_aux n xs.length xs le_rfl

theorem handleSmallCluster_sizes (cfg : ClusterConfig) (w : String → String → ℚ)
    (small : List String) (existing : List (List String))
    (hsmall : small.length ≤ cfg.max_cluster_size)
    (hex : ∀ c ∈ existing, c.length ≤ cfg.max_cluster_size) :
    ∀ c ∈ handleSmallCluster cfg w small existing, c.length ≤ cfg.max_cluster_size := by
  intro c hc
  simp only [handleSmallCluster] at hc
  split at hc
  · rcases List.mem_append.1 hc with h1 | h1
    · exact hex c h1
    · rw [List.mem_singleton.1 h1]; exact hsmall
  · split at hc
    · rename_i h0
      obtain ⟨i, hi, hilen, hicand⟩ := bestIndexFold_spec _ existing h0
      rw [hi, Int.toNat_natCast] at hc
      simp only [extendAt] at hc
      rcases List.mem_or_eq_of_mem_set hc with h1 | h1
      · exact hex c h1
      · have hguard : (existing.getD i []).length + small.length ≤ cfg.max_cluster_size := by
          by_contra hg
          exact hicand (if_neg hg)
        rw [h1, List.length_append]
        exact hguard
    · rcases List.mem_append.1 hc with h1 | h1
      · exact hex c h1
      · rw [List.mem_singleton.1 h1]; exact hsmall

theorem mergeStep_sizes (cfg : ClusterConfig) (w : String → String → ℚ)
    (merged : List (List String)) (i : ℕ)
    (hall : ∀ c ∈ merged, c.length ≤ cfg.max_cluster_size) :
    ∀ c ∈ mergeStep cfg w merged i, c.length ≤ cfg.max_cluster_size := by
  intro c hc
  simp only [mergeStep, findBestMergeTarget] at hc
  split at hc
  · rename_i ht
    obtain ⟨j, hj, hjlen, hjcand⟩ := bestIndexFold_spec _ merged ht
    rw [hj, Int.toNat_natCast] at hc
    have hc' := List.mem_of_mem_eraseIdx hc
    simp only [extendAt] at hc'
    rcases List.mem_or_eq_of_mem_set hc' with h1 | h1
    · exact hall c h1
    · have hji : ¬ j = i := by
        intro hji
        exact hjcand (by simp [hji])
      have hguard : (merged.getD j []).length + (merged.getD i []).length ≤
          cfg.max_cluster_size := by
        by_contra hg
        rw [if_neg hji, if_neg hg] at hjcand
        exact hjcand rfl
      rw [h1, List.length_append]
      exact hguard
  · exact hall c hc

theorem foldl_mergeStep_sizes (cfg : ClusterConfig) (w : String → String → ℚ) :
    ∀ (idxs : List ℕ) (clusters : List (List String)),
      (∀ c ∈ clusters, c.length ≤ cfg.max_cluster_size) →
      ∀ c ∈ idxs.foldl (mergeStep cfg w) clusters, c.length ≤ cfg.max_cluster_size := by
  intro idxs
  induction idxs with
  | nil => intro clusters hall; simpa using hall
  | cons i is ih =>
    intro clusters hall
    simp only [List.foldl_cons]
    exact ih (mergeStep cfg w clusters i) (mergeStep_sizes cfg w clusters i hall)

theorem mergeSmallClusters_sizes (cfg : ClusterConfig) (w : String → String → ℚ)
    (clusters : List (List String))
    (hall : ∀ c ∈ clusters, c.length ≤ cfg.max_cluster_size) :
    ∀ c ∈ mergeSmallClusters cfg w clusters, c.length ≤ cfg.max_cluster_size := by
  rw [mergeSmallClusters]
  by_cases hs : ((clusters.enum.filter
      (fun p => decide (p.2.length < cfg.min_cluster_size))).map Prod.fst).isEmpty
  · simpa [hs] using hall
  · simp only [hs, Bool.false_eq_true, if_false]
    exact foldl_mergeStep_sizes cfg w _ clusters hall

theorem splitLargeCluster_sizes (cfg : ClusterConfig) (spec : List String → ℕ → ℕ)
    (w : String → String → ℚ) (large : List String)
    (haccept : cfg.max_cluster_size < large.length →
      (large.length + cfg.max_cluster_size - 1) / cfg.max_cluster_size ≤
        (spectralClustering cfg spec w large large).length →
      ∀ d ∈ spectralClustering cfg spec w large large, d.length ≤ cfg.max_cluster_size) :
    ∀ c ∈ splitLargeCluster cfg spec w large, c.length ≤ cfg.max_cluster_size := by
  intro c hc
  simp only [splitLargeCluster] at hc
  split at hc
  · rename_i hle
    rw [List.mem_singleton.1 hc]
    exact hle
  · rename_i hgt
    push_neg at hgt
    split at hc
    · exact chunkList_sizes cfg.max_cluster_size large c hc
    · rename_i hacc
      push_neg at hacc
      exact haccept hgt hacc c hc

theorem optimizeFold_sizes (cfg : ClusterConfig) (spec : List String → ℕ → ℕ)
    (w : String → String → ℚ) :
    ∀ (cs : List (List String)) (opt : List (List String)),
      (∀ cluster ∈ cs, cfg.max_cluster_size < cluster.length →
        (cluster.length + cfg.max_cluster_size - 1) / cfg.max_cluster_size ≤
          (spectralClustering cfg spec w cluster cluster).length →
        ∀ d ∈ spectralClustering cfg spec w cluster cluster,
          d.length ≤ cfg.max_cluster_size) →
      (∀ c ∈ opt, c.length ≤ cfg.max_cluster_size) →
      ∀ c ∈ cs.foldl
          (fun opt cluster =>
            if cluster.length ≤ cfg.max_cluster_size then
              if cfg.min_cluster_size ≤ cluster.length then opt ++ [cluster]
              else handleSmallCluster cfg w cluster opt
            else opt ++ splitLargeCluster cfg spec w cluster)
          opt, c.length ≤ cfg.max_cluster_size := by
  intro cs
  induction cs with
  | nil => intro opt _ hopt; simpa using hopt
  | cons cl cs ih =>
    intro opt hcs hopt
    simp only [List.foldl_cons]
    refine ih _ (fun q hq => hcs q (List.mem_cons_of_mem _ hq)) ?_
    intro c hc
    have hcl := hcs cl (List.mem_cons_self _ _)
    split at hc
    · rename_i hle
      split at hc
      · rcases List.mem_append.1 hc with h1 | h1
        · exact hopt c h1
        · rw [List.mem_singleton.1 h1]; exact hle
      · exact handleSmallCluster_sizes cfg w cl opt hle hopt c hc
    · rcases List.mem_append.1 hc with h1 | h1
      · exact hopt c h1
      · exact splitLargeCluster_sizes cfg spec w cl hcl c h1

theorem optimizeClusters_sizes (cfg : ClusterConfig) (spec : List String → ℕ → ℕ)
    (w : String → String → ℚ) (clusters : List (List String))
    (hcs : ∀ cluster ∈ clusters, cfg.max_cluster_size < cluster.length →
      (cluster.length + cfg.max_cluster_size - 1) / cfg.max_cluster_size ≤
        (spectralClustering cfg spec w cluster cluster).length →
      ∀ d ∈ spectralClustering cfg spec w cluster cluster,
        d.length ≤ cfg.max_cluster_size) :
    ∀ c ∈ optimizeClusters cfg spec w clusters, c.length ≤ cfg.max_cluster_size := by
  intro c hc
  rw [optimizeClusters] at hc
  have hc' := List.mem_of_mem_filter hc
  exact mergeSmallClusters_sizes cfg w _
    (optimizeFold_sizes cfg spec w clusters [] hcs (by simp)) c hc'

/-! Section: Claim C1: partition totality of clustering -/

/-- C1: for every input dependency graph (and for every labelling the
external spectral-clustering library may return), the clusters returned by
`cluster_files` are a partition of the input file set: their concatenation
is a permutation of the key list (every file in exactly one cluster).
The second conjunct covers the community-detection fallback inside
`_spectral_clustering` (its result feeds `_optimize_clusters` as an
arbitrary initial cluster list), and the third conjunct covers the
top-level `_fallback_clustering` path. -/
theorem C1_partition_totality (cfg : ClusterConfig) (spec : List String → ℕ → ℕ)
    (w : String → String → ℚ) (g : List (String × List String))
    (hmax : 0 < cfg.max_cluster_size) :
    ((cluster_files cfg spec w g).flatten).Perm (g.map Prod.fst)
    ∧ (∀ init : List (List String),
        ((optimizeClusters cfg spec w init).flatten).Perm init.flatten)
    ∧ (fallbackClustering cfg.max_cluster_size (g.map Prod.fst)).flatten = g.map Prod.fst := by
  refine ⟨?_, fun init => optimizeClusters_flatten_perm cfg spec w init hmax,
    chunkList_flatten _ hmax _⟩
  simp only [cluster_files]
  by_cases he : g.isEmpty
  · have hg : g = [] := List.isEmpty_iff.1 he
    subst hg
    simp
  · simp only [he, Bool.false_eq_true, if_false]
    split
    · simpa using List.Perm.refl (g.map Prod.fst)
    · exact (optimizeClusters_flatten_perm cfg spec w _ hmax).trans
        (spectralClustering_flatten_perm cfg spec w _)

def gC1w : List (String × List String) :=
  [("pkg/alpha.py", ["beta"]), ("pkg/beta.py", [])]

theorem C1_partition_totality_witness :
    ((cluster_files ⟨12, 2⟩ (fun _ _ => 0) (fun _ _ => 0) gC1w).flatten).Perm
      (gC1w.map Prod.fst) :=
  (C1_partition_totality ⟨12, 2⟩ (fun _ _ => 0) (fun _ _ => 0) gC1w (by decide)).1

/-! Section: Claim C2: cluster size bound.  The graph built by
`_build_enhanced_graph` is embedded below and proved edgeless on every
input, so the spectral branch always takes the deterministic balanced
`np.arange(n) % n_clusters` labelling; the size bound then holds on every
path. -/

/-- Python `s.endswith(suffix)`. -/
def strEndsWith (s suffix : String) : Bool :=
  suffix.toList.isSuffixOf s.toList

/-- Model of `_find_target_files(dep, files)` (clustering.py lines 107-124):
the `if/elif` chain appends each matching file at most once, in file
order. -/
def findTargetFiles (dep : String) (files : List String) : List String :=
  files.foldl
    (fun targets file =>
      if strContains file dep then targets ++ [file]
      else if strEndsWith file (dep ++ ".py") || strEndsWith file (dep ++ ".js")
          || strEndsWith file (dep ++ ".ts") then targets ++ [file]
      else if strContains file.toLower dep.toLower then targets ++ [file]
      else targets)
    []

/-- The guarded ratio `len(deps) / union if union > 0 else 0`
(clustering.py lines 144-145). -/
def miFrac (k : ℕ) (d1 d2 : Finset String) : ℚ :=
  if 0 < (d1 ∪ d2).card then (k : ℚ) / ((d1 ∪ d2).card : ℚ) else 0

/-- Model of `_calculate_mutual_information` (clustering.py lines 125-151) on the
dependency sets of the two files; `math.log2` is the parameter `log2`. -/
def calculateMutualInformation (log2 : ℚ → ℚ) (d1 d2 : Finset String) : ℚ :=
  if d1 = ∅ ∧ d2 = ∅ then 0
  else if (d1 ∪ d2).card = 0 then 0
  else if 0 < (d1 ∩ d2).card then
    if 0 < miFrac d1.card d1 d2 ∧ 0 < miFrac d2.card d1 d2 ∧
        0 < ((d1 ∩ d2).card : ℚ) / ((d1 ∪ d2).card : ℚ) then
      max 0 ((((d1 ∩ d2).card : ℚ) / ((d1 ∪ d2).card : ℚ)) *
        log2 ((((d1 ∩ d2).card : ℚ) / ((d1 ∪ d2).card : ℚ)) /
          (miFrac d1.card d1 d2 * miFrac d2.card d1 d2)))
    else 0
  else 0

/-- `file_deps = {f: set(deps) for f, deps in dep_graph.items()}` with the
`.get(file, set())` default (clustering.py lines 79 and 128-129). -/
def fileDeps (g : List (String × List String)) (f : String) : Finset String :=
  ((g.lookup f).getD []).toFinset

/-- The candidate weight computed at clustering.py lines 88-96 for a visited
pair `(src, tgt)`: the normalized mutual information, multiplied by
`1 + math.log(complexity_factor)` when complexity scores are present
(`math.log` is the parameter `ln`; a non-positive `complexity_factor`
makes the real code raise into the `_fallback_clustering` path, which the
theorems cover separately). -/
def candidateWeight (log2 ln : ℚ → ℚ) (g : List (String × List String))
    (cs : Option (List (String × ℚ))) (src tgt : String) : ℚ :=
  match cs with
  | none => calculateMutualInformation log2 (fileDeps g src) (fileDeps g tgt)
  | some scores =>
      if scores.isEmpty then calculateMutualInformation log2 (fileDeps g src) (fileDeps g tgt)
      else calculateMutualInformation log2 (fileDeps g src) (fileDeps g tgt) *
        (1 + ln ((((scores.lookup src).getD 1) + ((scores.lookup tgt).getD 1)) / 2))

/-- `G.add_edge(src, tgt, weight=v)` on the undirected graph: both directions
carry the stored weight. -/
def updW (w : String → String → ℚ) (a b : String) (v : ℚ) : String → String → ℚ :=
  fun x y => if (x = a ∧ y = b) ∨ (x = b ∧ y = a) then v else w x y

/-- The `(src_file, target_file)` pairs visited by the nested loops of
`_build_enhanced_graph` (clustering.py lines 81-87), in iteration order. -/
def edgeCandidates (g : List (String × List String)) : List (String × String) :=
  (g.map (fun p =>
    (p.2.map (fun dep =>
      (findTargetFiles dep (g.map Prod.fst)).map (fun tgt => (p.1, tgt)))).flatten)).flatten

/-- Model of `_build_enhanced_graph` (clustering.py lines 67-105) as the weight
function of the graph it returns: starting from the edgeless graph, each
visited pair with `src_file != target_file` whose computed weight passes
the `weight > 0` gate (line 98) stores that weight. -/
def buildEnhancedGraphW (log2 ln : ℚ → ℚ) (g : List (String × List String))
    (cs : Option (List (String × ℚ))) : String → String → ℚ :=
  (edgeCandidates g).foldl
    (fun w p =>
      if p.1 ≠ p.2 then
        if 0 < candidateWeight log2 ln g cs p.1 p.2 then
          updW w p.1 p.2 (candidateWeight log2 ln g cs p.1 p.2)
        else w
      else w)
    (fun _ _ => 0)

/-- The normalized mutual information is never positive: with
`i = |d1 ∩ d2|` and `u = |d1 ∪ d2| = |d1| + |d2| - i` one has
`i*u - |d1|*|d2| = -(|d1| - i)*(|d2| - i) ≤ 0`, so the argument of `log2`
is at most 1 and the `max(0, ·)` clamp (line 148) returns 0.  The bound
`log2 q ≤ 0` for `q ≤ 1` is the only property of `math.log2` used. -/
theorem calculateMutualInformation_eq_zero (log2 : ℚ → ℚ)
    (hlog : ∀ q : ℚ, q ≤ 1 → log2 q ≤ 0) (d1 d2 : Finset String) :
    calculateMutualInformation log2 d1 d2 = 0 := by
  rw [calculateMutualInformation]
  split
  · rfl
  · split
    · rfl
    · split
      · split
        · rename_i hboth hu hi hpos
          obtain ⟨hpx, hpy, hpxy⟩ := hpos
          have hucard : 0 < (d1 ∪ d2).card := Nat.pos_of_ne_zero hu
          have huq : (0 : ℚ) < ((d1 ∪ d2).card : ℚ) := by exact_mod_cast hucard
          simp only [miFrac] at hpx hpy
          rw [if_pos hucard] at hpx
          rw [if_pos hucard] at hpy
          have haq : (0 : ℚ) < (d1.card : ℚ) := by
            rcases div_pos_iff.1 hpx with ⟨h, _⟩ | ⟨_, h⟩
            · exact h
            · exact absurd h (not_lt.2 (le_of_lt huq))
          have hbq : (0 : ℚ) < (d2.card : ℚ) := by
            rcases div_pos_iff.1 hpy with ⟨h, _⟩ | ⟨_, h⟩
            · exact h
            · exact absurd h (not_lt.2 (le_of_lt huq))
          have hcards : (d1 ∪ d2).card + (d1 ∩ d2).card = d1.card + d2.card :=
            Finset.card_union_add_card_inter d1 d2
          have hia : (d1 ∩ d2).card ≤ d1.card := Finset.card_le_card Finset.inter_subset_left
          have hib : (d1 ∩ d2).card ≤ d2.card := Finset.card_le_card Finset.inter_subset_right
          have hkey : ((d1 ∩ d2).card : ℚ) * ((d1 ∪ d2).card : ℚ) ≤
              (d1.card : ℚ) * (d2.card : ℚ) := by
            have h1 : ((d1 ∪ d2).card : ℚ) + ((d1 ∩ d2).card : ℚ) =
                (d1.card : ℚ) + (d2.card : ℚ) := by exact_mod_cast hcards
            have h2 : ((d1 ∩ d2).card : ℚ) ≤ (d1.card : ℚ) := by exact_mod_cast hia
            have h3 : ((d1 ∩ d2).card : ℚ) ≤ (d2.card : ℚ) := by exact_mod_cast hib
            nlinarith [mul_nonneg (sub_nonneg.2 h2) (sub_nonneg.2 h3)]
          have hu0 : ((d1 ∪ d2).card : ℚ) ≠ 0 := ne_of_gt huq
          have ha0 : (d1.card : ℚ) ≠ 0 := ne_of_gt haq
          have hb0 : (d2.card : ℚ) ≠ 0 := ne_of_gt hbq
          have hform : (((d1 ∩ d2).card : ℚ) / ((d1 ∪ d2).card : ℚ)) /
              ((d1.card : ℚ) / ((d1 ∪ d2).card : ℚ) *
                ((d2.card : ℚ) / ((d1 ∪ d2).card : ℚ))) =
              ((d1 ∩ d2).card : ℚ) * ((d1 ∪ d2).card : ℚ) /
                ((d1.card : ℚ) * (d2.card : ℚ)) := by
            field_simp
            ring
          have harg : (((d1 ∩ d2).card : ℚ) / ((d1 ∪ d2).card : ℚ)) /
              ((d1.card : ℚ) / ((d1 ∪ d2).card : ℚ) *
                ((d2.card : ℚ) / ((d1 ∪ d2).card : ℚ))) ≤ 1 := by
            rw [hform, div_le_one (mul_pos haq hbq)]
            exact hkey
          refine max_eq_left ?_
          refine mul_nonpos_iff.2 (Or.inl ⟨le_of_lt hpxy, ?_⟩)
          simp only [miFrac]
          rw [if_pos hucard, if_pos hucard]
          exact hlog _ harg
        · rfl
      · rfl

theorem candidateWeight_eq_zero (log2 ln : ℚ → ℚ)
    (hlog : ∀ q : ℚ, q ≤ 1 → log2 q ≤ 0) (g : List (String × List String))
    (cs : Option (List (String × ℚ))) (src tgt : String) :
    candidateWeight log2 ln g cs src tgt = 0 := by
  cases cs with
  | none =>
    simp only [candidateWeight]
    exact calculateMutualInformation_eq_zero log2 hlog _ _
  | some scores =>
    simp only [candidateWeight]
    rw [calculateMutualInformation_eq_zero log2 hlog]
    split
    · rfl
    · exact zero_mul _

theorem foldl_const_of_fixed {α β : Type} (f : α → β → α) (a : α)
    (hf : ∀ b, f a b = a) : ∀ l : List β, l.foldl f a = a := by
  intro l
  induction l with
  | nil => rfl
  | cons b bs ih =>
    rw [List.foldl_cons, hf b]
    exact ih

/-- On every input, `_build_enhanced_graph` returns the edgeless graph: no
candidate weight ever passes the `weight > 0` gate. -/
theorem buildEnhancedGraphW_eq_zero (log2 ln : ℚ → ℚ) (g : List (String × List String))
    (cs : Option (List (String × ℚ)))
    (hlog : ∀ q : ℚ, q ≤ 1 → log2 q ≤ 0) :
    buildEnhancedGraphW log2 ln g cs = (fun _ _ => 0) := by
  rw [buildEnhancedGraphW]
  refine foldl_const_of_fixed _ _ ?_ (edgeCandidates g)
  intro p
  simp [candidateWeight_eq_zero log2 ln hlog g cs]

theorem hasAnyEdge_eq_false (w : String → String → ℚ) (hw : ∀ a b, ¬ (0 < w a b))
    (nodes : List String) : hasAnyEdge w nodes = false := by
  simp [hasAnyEdge, hw]

/-- Length of the group stored for label `lab` (first matching entry),
0 when absent. -/
def entryLen : List (ℕ × List String) → ℕ → ℕ
  | [], _ => 0
  | e :: rest, lab => if e.1 = lab then e.2.length else entryLen rest lab

theorem entryLen_eq_of_nodup :
    ∀ acc : List (ℕ × List String), ((acc.map Prod.fst).Nodup) →
      ∀ e ∈ acc, entryLen acc e.1 = e.2.length := by
  intro acc
  induction acc with
  | nil => intro _ e he; cases he
  | cons q rest ih =>
    intro hnd e he
    rw [List.map_cons, List.nodup_cons] at hnd
    rcases List.mem_cons.1 he with he1 | he1
    · subst he1
      simp [entryLen]
    · have hne : q.1 ≠ e.1 := by
        intro hEq
        exact hnd.1 (hEq ▸ List.mem_map_of_mem Prod.fst he1)
      simp only [entryLen, if_neg hne]
      exact ih hnd.2 e he1

theorem insertLabeled_keys (x : String) (l : ℕ) :
    ∀ acc : List (ℕ × List String),
      (insertLabeled acc x l).map Prod.fst =
        if l ∈ acc.map Prod.fst then acc.map Prod.fst else acc.map Prod.fst ++ [l] := by
  intro acc
  induction acc with
  | nil => simp [insertLabeled]
  | cons q rest ih =>
    obtain ⟨lq, xs⟩ := q
    by_cases hq : lq = l
    · subst hq
      simp [insertLabeled, List.mem_cons]
    · simp only [insertLabeled, if_neg hq, List.map_cons, ih]
      by_cases hmem : l ∈ rest.map Prod.fst
      · rw [if_pos hmem, if_pos (List.mem_cons_of_mem _ hmem)]
      · have hnotin : l ∉ lq :: rest.map Prod.fst := by
          intro hmem2
          rcases List.mem_cons.1 hmem2 with h | h
          · exact hq h.symm
          · exact hmem h
        rw [if_neg hmem, if_neg hnotin, List.cons_append]

theorem insertLabeled_keys_nodup (x : String) (l : ℕ) (acc : List (ℕ × List String))
    (hnd : (acc.map Prod.fst).Nodup) : ((insertLabeled acc x l).map Prod.fst).Nodup := by
  rw [insertLabeled_keys]
  split
  · exact hnd
  · rename_i hnot
    exact hnd.append (List.nodup_singleton l)
      (fun a ha hal => hnot (by rwa [List.mem_singleton.1 hal] at ha))

theorem insertLabeled_entryLen (x : String) (l lab : ℕ) :
    ∀ acc : List (ℕ × List String),
      entryLen (insertLabeled acc x l) lab ≤ entryLen acc lab + (if l = lab then 1 else 0) := by
  intro acc
  induction acc with
  | nil =>
    by_cases hl : l = lab
    · simp [insertLabeled, entryLen, hl]
    · simp [insertLabeled, entryLen, hl]
  | cons q rest ih =>
    obtain ⟨lq, xs⟩ := q
    by_cases hq : lq = l
    · simp only [insertLabeled, if_pos hq]
      by_cases hlab : lq = lab
      · have hl2 : l = lab := hq ▸ hlab
        simp [entryLen, hlab, hl2]
      · simp only [entryLen, if_neg hlab]
        exact Nat.le_add_right _ _
    · simp only [insertLabeled, if_neg hq]
      by_cases hlab : lq = lab
      · simp only [entryLen, if_pos hlab]
        exact Nat.le_add_right _ _
      · simp only [entryLen, if_neg hlab]
        exact ih

/-- Invariant of the `defaultdict(list)` grouping fold: the stored labels are
distinct and come from the processed pairs, and every stored group is no
longer than the number of pairs carrying its label. -/
theorem groupFold_spec :
    ∀ (pairs : List (String × ℕ)) (acc : List (ℕ × List String)),
      ((acc.map Prod.fst).Nodup) →
      (((pairs.foldl (fun a p => insertLabeled a p.1 p.2) acc).map Prod.fst).Nodup
       ∧ (∀ lab, lab ∈ (pairs.foldl (fun a p => insertLabeled a p.1 p.2) acc).map Prod.fst →
            lab ∈ acc.map Prod.fst ∨ lab ∈ pairs.map Prod.snd)
       ∧ ∀ e ∈ pairs.foldl (fun a p => insertLabeled a p.1 p.2) acc,
           e.2.length ≤ entryLen acc e.1 + pairs.countP (fun q => decide (q.2 = e.1))) := by
  intro pairs
  induction pairs with
  | nil =>
    intro acc hnd
    refine ⟨hnd, fun lab hl => Or.inl hl, ?_⟩
    intro e he
    simp only [List.foldl_nil] at he
    rw [entryLen_eq_of_nodup acc hnd e he, List.countP_nil]
    exact Nat.le_refl _
  | cons p ps ih =>
    intro acc hnd
    simp only [List.foldl_cons]
    have hnd2 : ((insertLabeled acc p.1 p.2).map Prod.fst).Nodup :=
      insertLabeled_keys_nodup p.1 p.2 acc hnd
    obtain ⟨h1, h2, h3⟩ := ih (insertLabeled acc p.1 p.2) hnd2
    refine ⟨h1, ?_, ?_⟩
    · intro lab hl
      rcases h2 lab hl with h | h
      · rw [insertLabeled_keys] at h
        split at h
        · exact Or.inl h
        · rcases List.mem_append.1 h with h4 | h4
          · exact Or.inl h4
          · refine Or.inr ?_
            rw [List.map_cons, List.mem_singleton.1 h4]
            exact List.mem_cons_self _ _
      · refine Or.inr ?_
        rw [List.map_cons]
        exact List.mem_cons_of_mem _ h
    · intro e he
      have hb := h3 e he
      have hstep := insertLabeled_entryLen p.1 p.2 e.1 acc
      have hcnt : List.countP (fun q => decide (q.2 = e.1)) (p :: ps) =
          List.countP (fun q => decide (q.2 = e.1)) ps + (if p.2 = e.1 then 1 else 0) := by
        rw [List.countP_cons]
        by_cases hp : p.2 = e.1
        · simp [hp]
        · simp [hp]
      by_cases hp : p.2 = e.1
      · rw [if_pos hp] at hstep
        rw [hcnt, if_pos hp]
        omega
      · rw [if_neg hp] at hstep
        rw [hcnt, if_neg hp]
        omega

/-- Exact count of indices of residue `j` below `m`. -/
theorem countP_range_mod (k j : ℕ) (hk : 0 < k) (hj : j < k) :
    ∀ m : ℕ, (List.range m).countP (fun i => decide (i % k = j)) =
      m / k + (if j < m % k then 1 else 0) := by
  intro m
  induction m with
  | zero => simp
  | succ m ihm =>
    rw [List.range_succ, List.countP_append, ihm]
    have hsingle : List.countP (fun i => decide (i % k = j)) [m] =
        if m % k = j then 1 else 0 := by
      simp [List.countP_cons]
    rw [hsingle]
    have hm := Nat.div_add_mod m k
    have hmlt : m % k < k := Nat.mod_lt _ hk
    by_cases hcase : m % k + 1 < k
    · have hd : m + 1 = (m % k + 1) + k * (m / k) := by omega
      have h1 : (m + 1) / k = m / k := by
        rw [hd, Nat.add_mul_div_left _ _ hk, Nat.div_eq_of_lt hcase, Nat.zero_add]
      have h2 : (m + 1) % k = m % k + 1 := by
        rw [hd, Nat.add_mul_mod_self_left, Nat.mod_eq_of_lt hcase]
      rw [h1, h2]
      split_ifs <;> omega
    · have hk1 : m % k + 1 = k := by omega
      have hrw : k * (m / k + 1) = k * (m / k) + k := by ring
      have hd : m + 1 = k * (m / k + 1) := by omega
      have h1 : (m + 1) / k = m / k + 1 := by
        rw [hd, Nat.mul_div_cancel_left _ hk]
      have h2 : (m + 1) % k = 0 := by
        rw [hd, Nat.mul_mod_right]
      rw [h1, h2]
      split_ifs <;> omega

/-- Each residue class below `m` has at most `ceil(m/k)` members: the
round-robin labelling `np.arange(n) % n_clusters` produces balanced
groups. -/
theorem round_robin_le_ceil (k j m : ℕ) (hk : 0 < k) :
    (List.range m).countP (fun i => decide (i % k = j)) ≤ (m + k - 1) / k := by
  by_cases hj : j < k
  · rw [countP_range_mod k j hk hj m]
    by_cases hr : m % k = 0
    · rw [hr, if_neg (Nat.not_lt_zero j), Nat.add_zero]
      exact Nat.div_le_div_right (by omega)
    · have hr1 : 1 ≤ m % k := Nat.pos_of_ne_zero hr
      have hm := Nat.div_add_mod m k
      have hmlt : m % k < k := Nat.mod_lt _ hk
      have hkq : k * (m / k + 1) = k * (m / k) + k := by ring
      have hdecomp : m + k - 1 = (m % k - 1) + k * (m / k + 1) := by omega
      have hceil : (m + k - 1) / k = m / k + 1 := by
        rw [hdecomp, Nat.add_mul_div_left _ _ hk,
          Nat.div_eq_of_lt (show m % k - 1 < k by omega), Nat.zero_add]
      rw [hceil]
      split_ifs <;> omega
  · have hzero : (List.range m).countP (fun i => decide (i % k = j)) = 0 := by
      rw [List.countP_eq_zero]
      intro i _
      simp only [decide_eq_true_eq]
      intro he
      exact hj (he ▸ Nat.mod_lt i hk)
    rw [hzero]
    exact Nat.zero_le _

theorem nodup_lt_length_le (l : List ℕ) (k : ℕ) (hnd : l.Nodup) (hlt : ∀ x ∈ l, x < k) :
    l.length ≤ k := by
  have h1 : l.toFinset.card = l.length := List.toFinset_card_of_nodup hnd
  have h2 : l.toFinset ⊆ Finset.range k := by
    intro x hx
    rw [List.mem_toFinset] at hx
    exact Finset.mem_range.2 (hlt x hx)
  calc l.length = l.toFinset.card := h1.symm
    _ ≤ (Finset.range k).card := Finset.card_le_card h2
    _ = k := Finset.card_range k

theorem le_mul_ceil (mx m : ℕ) (hmx : 0 < mx) : m ≤ mx * ((m + mx - 1) / mx) := by
  have h1 := Nat.div_add_mod (m + mx - 1) mx
  have h2 : (m + mx - 1) % mx < mx := Nat.mod_lt _ hmx
  omega

theorem ceil_le_of_le_mul (k mx m : ℕ) (hk : 0 < k) (hm : m ≤ mx * k) :
    (m + k - 1) / k ≤ mx := by
  have h1 := Nat.div_add_mod (m + k - 1) k
  have h2 : (m + k - 1) % k < k := Nat.mod_lt _ hk
  by_contra hgt
  push_neg at hgt
  have h3 : k * (mx + 1) ≤ k * ((m + k - 1) / k) := Nat.mul_le_mul_left k hgt
  have h4 : k * (mx + 1) = mx * k + k := by ring
  omega

/-- For an edgeless graph, any sub-split that `_split_large_cluster`
accepts (at least `ceil(n/max)` parts) consists of balanced round-robin
groups, each within the bound. -/
theorem edgeless_accept_bounded (cfg : ClusterConfig) (spec : List String → ℕ → ℕ)
    (w : String → String → ℚ) (large : List String)
    (hmax : 0 < cfg.max_cluster_size) (hw : ∀ a b, ¬ (0 < w a b)) :
    cfg.max_cluster_size < large.length →
    (large.length + cfg.max_cluster_size - 1) / cfg.max_cluster_size ≤
      (spectralClustering cfg spec w large large).length →
    ∀ d ∈ spectralClustering cfg spec w large large, d.length ≤ cfg.max_cluster_size := by
  intro hbig haccept d hd
  by_cases h4 : large.length < 4
  · rw [spectralClustering, if_pos h4] at haccept
    have h2 : 2 ≤ (large.length + cfg.max_cluster_size - 1) / cfg.max_cluster_size := by
      rw [Nat.le_div_iff_mul_le hmax]
      omega
    simp only [List.length_singleton] at haccept
    omega
  · rw [spectralClustering, if_neg h4] at hd haccept
    have hlabels : spectralLabels cfg spec w large =
        (List.range large.length).map (fun i => i % nClustersFor cfg large.length) := by
      simp only [spectralLabels, hasAnyEdge_eq_false w hw large, Bool.false_eq_true, if_false]
    rw [hlabels] at hd haccept
    set m := large.length with hmdef
    set k := nClustersFor cfg m with hkdef
    have hk2 : 2 ≤ k := by
      rw [hkdef, nClustersFor]
      exact le_min (le_max_left _ _) (by norm_num)
    set pairs := large.zip ((List.range m).map (fun i => i % k)) with hpairs
    rw [groupByLabel] at hd haccept
    obtain ⟨hnodup, hsubset, hlen⟩ := groupFold_spec pairs [] (by simp)
    obtain ⟨e, he, hde⟩ := List.mem_map.1 hd
    have hlene : e.2.length ≤ pairs.countP (fun q => decide (q.2 = e.1)) := by
      have hb := hlen e he
      simpa [entryLen] using hb
    have hsnd : pairs.map Prod.snd = (List.range m).map (fun i => i % k) := by
      rw [hpairs]
      exact List.map_snd_zip _ _ (by simp [hmdef])
    have hcount : pairs.countP (fun q => decide (q.2 = e.1)) =
        (List.range m).countP (fun i => decide (i % k = e.1)) := by
      have hc1 : pairs.countP (fun q => decide (q.2 = e.1)) =
          (pairs.map Prod.snd).countP (fun y => decide (y = e.1)) := by
        rw [List.countP_map]
        rfl
      rw [hc1, hsnd, List.countP_map]
      rfl
    have hklen : (pairs.foldl (fun a q => insertLabeled a q.1 q.2) []).length ≤ k := by
      have hlm : ((pairs.foldl (fun a q => insertLabeled a q.1 q.2) []).map Prod.fst).length =
          (pairs.foldl (fun a q => insertLabeled a q.1 q.2) []).length :=
        List.length_map _ _
      rw [← hlm]
      refine nodup_lt_length_le _ k hnodup ?_
      intro x hx
      rcases hsubset x hx with h | h
      · simp at h
      · rw [hsnd] at h
        obtain ⟨i, _, hik⟩ := List.mem_map.1 h
        rw [← hik]
        exact Nat.mod_lt i (by omega)
    have hacc2 : (m + cfg.max_cluster_size - 1) / cfg.max_cluster_size ≤ k := by
      calc (m + cfg.max_cluster_size - 1) / cfg.max_cluster_size
          ≤ ((pairs.foldl (fun a q => insertLabeled a q.1 q.2) []).map Prod.snd).length :=
            haccept
        _ = (pairs.foldl (fun a q => insertLabeled a q.1 q.2) []).length :=
            List.length_map _ _
        _ ≤ k := hklen
    have hml : m ≤ cfg.max_cluster_size * k :=
      le_trans (le_mul_ceil cfg.max_cluster_size m hmax)
        (Nat.mul_le_mul_left _ hacc2)
    have hceil2 : (m + k - 1) / k ≤ cfg.max_cluster_size :=
      ceil_le_of_le_mul k cfg.max_cluster_size m (by omega) hml
    have hgb : (List.range m).countP (fun i => decide (i % k = e.1)) ≤ (m + k - 1) / k :=
      round_robin_le_ceil k e.1 m (by omega)
    rw [← hde]
    omega

theorem cluster_files_sizes_of_edgeless (cfg : ClusterConfig) (spec : List String → ℕ → ℕ)
    (w : String → String → ℚ) (g : List (String × List String))
    (hmax : 0 < cfg.max_cluster_size) (hw : ∀ a b, ¬ (0 < w a b)) :
    ∀ c ∈ cluster_files cfg spec w g,
      c.length ≤ cfg.max_cluster_size ∨
        (c = g.map Prod.fst ∧ (g.map Prod.fst).length ≤ cfg.max_cluster_size) := by
  intro c hc
  simp only [cluster_files] at hc
  by_cases he : g.isEmpty
  · simp [he] at hc
  · simp only [he, Bool.false_eq_true, if_false] at hc
    split at hc
    · rename_i hlen
      exact Or.inr ⟨List.mem_singleton.1 hc, hlen⟩
    · exact Or.inl (optimizeClusters_sizes cfg spec w _
        (fun cluster _ => edgeless_accept_bounded cfg spec w cluster hmax hw) c hc)

/-- C2: every cluster returned by `cluster_files` has size at most
`max_cluster_size`, except the single whole-set cluster when the file
count is at most `max_cluster_size`.  The claim holds because the graph
built by `_build_enhanced_graph` never contains an edge (first conjunct):
the normalized mutual information is never positive, so `max(0, mi)` is 0
and the `weight > 0` gate at clustering.py line 98 never fires.  Hence
`_spectral_clustering` always takes the deterministic
`np.arange(n) % n_clusters` labelling, whose round-robin groups are
balanced, and every sub-split `_split_large_cluster` accepts (at least
`ceil(n/max)` parts) has parts of size at most
`ceil(n/n_clusters) ≤ max_cluster_size` (second conjunct).  The bound also
holds for any initial partition fed to `_optimize_clusters` — covering the
community-detection fallback (third conjunct) — and on the
`_fallback_clustering` chunking path (fourth conjunct).  `hlog` states
the one property of `math.log2` the proof uses. -/
theorem C2_size_bound (cfg : ClusterConfig) (spec : List String → ℕ → ℕ)
    (g : List (String × List String)) (log2 ln : ℚ → ℚ)
    (cs : Option (List (String × ℚ)))
    (hmax : 0 < cfg.max_cluster_size)
    (hlog : ∀ q : ℚ, q ≤ 1 → log2 q ≤ 0) :
    buildEnhancedGraphW log2 ln g cs = (fun _ _ => 0)
    ∧ (∀ c ∈ cluster_files cfg spec (buildEnhancedGraphW log2 ln g cs) g,
        c.length ≤ cfg.max_cluster_size ∨
          (c = g.map Prod.fst ∧ (g.map Prod.fst).length ≤ cfg.max_cluster_size))
    ∧ (∀ init : List (List String),
        ∀ c ∈ optimizeClusters cfg spec (buildEnhancedGraphW log2 ln g cs) init,
          c.length ≤ cfg.max_cluster_size)
    ∧ (∀ c ∈ fallbackClustering cfg.max_cluster_size (g.map Prod.fst),
        c.length ≤ cfg.max_cluster_size) := by
  have hzero := buildEnhancedGraphW_eq_zero log2 ln g cs hlog
  have hw : ∀ a b, ¬ (0 < buildEnhancedGraphW log2 ln g cs a b) := by
    intro a b
    rw [hzero]
    exact lt_irrefl 0
  refine ⟨hzero, cluster_files_sizes_of_edgeless cfg spec _ g hmax hw, ?_, ?_⟩
  · intro init c hc
    exact optimizeClusters_sizes cfg spec _ init
      (fun cluster _ => edgeless_accept_bounded cfg spec _ cluster hmax hw) c hc
  · intro c hc
    exact chunkList_sizes cfg.max_cluster_size _ c hc

theorem C2_size_bound_witness :
    (["solo.py"] : List String).length ≤ (12 : ℕ) ∨
      ((["solo.py"] : List String) =
          ([("solo.py", ["os"])] : List (String × List String)).map Prod.fst ∧
        (([("solo.py", ["os"])] : List (String × List String)).map Prod.fst).length ≤ 12) :=
  (C2_size_bound ⟨12, 2⟩ (fun _ _ => 0) [("solo.py", ["os"])] (fun _ => 0) (fun _ => 0) none
    (by decide) (fun _ _ => le_refl 0)).2.1 ["solo.py"] (by decide)

/-! Section: Claim C10: empty graph and whole-set shortcut -/

/-- C10: `cluster_files` returns `[]` on the empty dependency graph
without any other work, and for every non-empty graph with at most
`max_cluster_size` files it returns exactly one cluster holding the whole
(ordered) key list — `min_cluster_size` is not consulted on this path, so
this holds even when the file count is below `min_cluster_size`. -/
theorem C10_trivial_paths (cfg : ClusterConfig) (spec : List String → ℕ → ℕ)
    (w : String → String → ℚ) :
    cluster_files cfg spec w [] = []
    ∧ ∀ g : List (String × List String), g ≠ [] →
        (g.map Prod.fst).length ≤ cfg.max_cluster_size →
        cluster_files cfg spec w g = [g.map Prod.fst] := by
  constructor
  · simp [cluster_files]
  · intro g hg hlen
    have hge : g.isEmpty = false := by
      cases g with
      | nil => exact absurd rfl hg
      | cons p rest => rfl
    simp only [List.length_map] at hlen
    simp [cluster_files, hge, hlen]

theorem C10_trivial_paths_witness :
    cluster_files ⟨12, 2⟩ (fun _ _ => 0) (fun _ _ => 0) [] = []
    ∧ cluster_files ⟨12, 2⟩ (fun _ _ => 0) (fun _ _ => 0) [("one.py", [])] = [["one.py"]] := by
  refine ⟨(C10_trivial_paths ⟨12, 2⟩ (fun _ _ => 0) (fun _ _ => 0)).1, ?_⟩
  have h := (C10_trivial_paths ⟨12, 2⟩ (fun _ _ => 0) (fun _ _ => 0)).2
    [("one.py", [])] (by decide) (by decide)
  simpa using h

/-! Section: Complexity metrics (`technical_debt.py`) -/

/-- Model of `ComplexityMetrics` dataclass (technical_debt.py lines 13-23). -/
structure ComplexityMetrics where
  cyclomatic_complexity : ℚ
  cognitive_complexity : ℚ
  nesting_depth : ℤ
  function_count : ℤ
  class_count : ℤ
  lines_of_code : ℤ
  code_duplication_ratio : ℚ
  maintainability_index : ℚ
deriving Repr, DecidableEq

/-- Model of `ComplexityMetrics.overall_score` (technical_debt.py lines 25-50). -/
def ComplexityMetrics.overall_score (m : ComplexityMetrics) : ℚ :=
  let normalized_cyclomatic := min 100 (m.cyclomatic_complexity * 2)
  let normalized_cognitive := min 100 (m.cognitive_complexity * 1.5)
  let normalized_nesting := min 100 ((m.nesting_depth : ℚ) * 10)
  let normalized_duplication := m.code_duplication_ratio * 100
  let normalized_maintainability := max 0 (100 - m.maintainability_index)
  let score :=
    0.25 * normalized_cyclomatic +
    0.30 * normalized_cognitive +
    0.15 * normalized_nesting +
    0.20 * normalized_duplication +
    0.10 * normalized_maintainability
  min 100 (max 0 score)

/-- The "Simplified overall score calculation" used by
`analyze_project_enhanced` (analysis.py lines 79-87) to fill
`complexity_scores`: `min(100, max(0, cyclomatic*0.3 + cognitive*0.4 +
nesting*5 + max(0, 100 - maintainability)*0.3))`. -/
def enhancedComplexityScore (m : ComplexityMetrics) : ℚ :=
  let score :=
    m.cyclomatic_complexity * 0.3 + m.cognitive_complexity * 0.4 +
    (m.nesting_depth : ℚ) * 5 + max 0 (100 - m.maintainability_index) * 0.3
  min 100 (max 0 score)

/-- The `complexity_scores` map built by `analyze_project_enhanced`
(analysis.py lines 72-90) from `debt_analysis['file_complexities']`
(a per-file dict of all `ComplexityMetrics` fields, technical_debt.py
line 101): one entry per analysed file, holding the simplified score. -/
def complexityScoresMap (fc : List (String × ComplexityMetrics)) : List (String × ℚ) :=
  fc.map (fun p => (p.1, enhancedComplexityScore p.2))

/-! Section: Claim C3: overall_score is clamped into [0, 100] -/

/-- C3: for every `ComplexityMetrics` value — whatever its fields,
including the degenerate values produced for an empty or unreadable file —
`overall_score` lies in the closed interval [0, 100], by the final
`min(100, max(0, score))` clamp. -/
theorem C3_overall_score_bounds (m : ComplexityMetrics) :
    0 ≤ m.overall_score ∧ m.overall_score ≤ 100 := by
  unfold ComplexityMetrics.overall_score
  constructor
  · exact le_min (by norm_num) (le_max_left 0 _)
  · exact min_le_left 100 _

/-! Section: Claim C6: the stored complexity score is not overall_score -/

/-- The metrics of a minimal file: each counter 1, no duplication, full
maintainability (these are also the exception-fallback metrics of
`analyze_file_complexity`, technical_debt.py lines 137-146). -/
def mC6 : ComplexityMetrics :=
  { cyclomatic_complexity := 1
    cognitive_complexity := 1
    nesting_depth := 1
    function_count := 0
    class_count := 0
    lines_of_code := 0
    code_duplication_ratio := 0
    maintainability_index := 100 }

/-- C6 counterexample: `analyze_project_enhanced` stores
`1*0.3 + 1*0.4 + 1*5 + 0*0.3 = 5.7` for this file, while the
`ComplexityMetrics.overall_score` blend (25/30/15/20/10 with
normalisation) gives `0.25*2 + 0.30*1.5 + 0.15*10 = 2.45`: the value kept
in `complexity_scores` is not the file's `overall_score`. -/
theorem C6_complexity_scores_counterexample :
    (complexityScoresMap [("pkg/mini.py", mC6)]).lookup "pkg/mini.py" ≠
      some (ComplexityMetrics.overall_score mC6) := by
  have h1 : enhancedComplexityScore mC6 = 57 / 10 := by
    simp only [enhancedComplexityScore, mC6]
    norm_num [min_def, max_def]
  have h2 : ComplexityMetrics.overall_score mC6 = 49 / 20 := by
    simp only [ComplexityMetrics.overall_score, mC6]
    norm_num [min_def, max_def]
  simp only [complexityScoresMap, List.map_cons, List.map_nil, List.lookup, beq_self_eq_true,
    h1, h2]
  intro hcontra
  have := Option.some.inj hcontra
  norm_num at this

/-- C6 (amended): for every analysis run, every entry of the
`complexity_scores` map is the *simplified* blend
`min(100, max(0, cyclomatic*0.3 + cognitive*0.4 + nesting*5 +
max(0, 100 - maintainability)*0.3))` of that file's metrics (analysis.py
lines 85-87) — not `overall_score` — and in particular it still lies in
[0, 100]. -/
theorem C6_complexity_scores_amended (fc : List (String × ComplexityMetrics)) :
    ∀ p ∈ complexityScoresMap fc,
      ∃ m : ComplexityMetrics, (p.1, m) ∈ fc ∧ p.2 = enhancedComplexityScore m ∧
        0 ≤ p.2 ∧ p.2 ≤ 100 := by
  intro p hp
  rcases List.mem_map.1 hp with ⟨q, hq, hpq⟩
  refine ⟨q.2, ?_, ?_, ?_, ?_⟩
  · rw [← hpq]; exact hq
  · rw [← hpq]
  · rw [← hpq]
    exact le_min (by norm_num) (le_max_left 0 _)
  · rw [← hpq]
    exact min_le_left 100 _

def mC6w : ComplexityMetrics :=
  { cyclomatic_complexity := 4
    cognitive_complexity := 6
    nesting_depth := 2
    function_count := 3
    class_count := 1
    lines_of_code := 40
    code_duplication_ratio := 0.1
    maintainability_index := 80 }

theorem C6_complexity_scores_amended_witness :
    ∃ m : ComplexityMetrics,
      (("src/w6.py", m) ∈ [("src/w6.py", mC6w)]) ∧
        (("src/w6.py", enhancedComplexityScore mC6w) : String × ℚ).2 =
          enhancedComplexityScore m ∧
        0 ≤ (("src/w6.py", enhancedComplexityScore mC6w) : String × ℚ).2 ∧
        (("src/w6.py", enhancedComplexityScore mC6w) : String × ℚ).2 ≤ 100 :=
  C6_complexity_scores_amended [("src/w6.py", mC6w)]
    ("src/w6.py", enhancedComplexityScore mC6w) (List.mem_singleton.2 rfl)

/-! Section: Graph builder (`analysis.py`) -/

/-- Model of `IGNORE_DIRS` (constants.py line 5); membership order is irrelevant
because it is only consumed through `any(...)`. -/
def IGNORE_DIRS : List String :=
  [".git", "__pycache__", "node_modules", ".llm-index", ".venv", "env", ".env"]

/-- Model of `MAX_FILES_PER_PROJECT` (constants.py line 24). -/
def MAX_FILES_PER_PROJECT : ℕ := 2000

/-- One `(dirpath, fname)` pair produced by `os.walk`, flattened per file
(the per-directory ignore test of analysis.py line 16 uses only the
file's own `dirpath`, so the flattening is behaviour-preserving).
`readable` models whether the two `open`/`read` calls succeed
(analysis.py lines 28-36); `deps` models the tokens the AST/regex
dependency extraction yields for this file (lines 38-54). -/
structure WalkEntry where
  dirpath : String
  fname : String
  readable : Bool
  deps : List String
deriving Repr, DecidableEq

/-- Model of `any(x in dirpath for x in IGNORE_DIRS)` (analysis.py line 16). -/
def ignoredDir (d : String) : Bool :=
  IGNORE_DIRS.any (fun x => strContains d x)

/-- Model of `fname.startswith('.')`: the first character is a dot. -/
def startsWithDot (s : String) : Bool :=
  match s.toList with
  | [] => false
  | c :: _ => c = '.'

/-- A walk entry survives the directory-ignore and dotfile filters
(analysis.py lines 16-20) and is therefore counted against the limit. -/
def eligibleEntry (e : WalkEntry) : Bool :=
  !(ignoredDir e.dirpath) && !(startsWithDot e.fname)

/-- Model of `dep_graph[fpath] = list(deps)`: dictionary assignment on an
insertion-ordered association list. -/
def dictInsert (g : List (String × List String)) (k : String) (v : List String) :
    List (String × List String) :=
  if (g.map Prod.fst).contains k then
    g.map (fun p => if p.1 = k then (k, v) else p)
  else g ++ [(k, v)]

/-- The body of the walk loop of `analyze_project` (analysis.py lines
15-56): count every non-ignored, non-dotfile entry, raise
(`Except.error`) as soon as the count exceeds the limit, skip unreadable
files with a warning, and otherwise record the extracted dependencies. -/
def analyzeProjectGo (maxFiles : ℕ) :
    List WalkEntry → ℕ → List (String × List String) →
      Except String (List (String × List String))
  | [], _, graph => Except.ok graph
  | e :: rest, count, graph =>
      if eligibleEntry e then
        if maxFiles < count + 1 then Except.error "Project exceeds file limit."
        else if e.readable then
          analyzeProjectGo maxFiles rest (count + 1)
            (dictInsert graph (e.dirpath ++ "/" ++ e.fname) e.deps)
        else analyzeProjectGo maxFiles rest (count + 1) graph
      else analyzeProjectGo maxFiles rest count graph

/-- Model of `analyze_project` (analysis.py lines 10-59) over a walked file list,
with the configured ceiling as a parameter (the source reads it from
`MAX_FILES_PER_PROJECT`). -/
def analyzeProject (maxFiles : ℕ) (entries : List WalkEntry) :
    Except String (List (String × List String)) :=
  analyzeProjectGo maxFiles entries 0 []

/-! Section: Claim C9: the file-count ceiling aborts the run -/

theorem analyzeProjectGo_error_of_over (maxFiles : ℕ) :
    ∀ (pre rest : List WalkEntry) (count : ℕ) (graph : List (String × List String)),
      count ≤ maxFiles →
      maxFiles < count + (pre.filter eligibleEntry).length →
      analyzeProjectGo maxFiles (pre ++ rest) count graph =
        Except.error "Project exceeds file limit." := by
  intro pre
  induction pre with
  | nil =>
    intro rest count graph hle hover
    simp only [List.filter_nil, List.length_nil] at hover
    omega
  | cons e pre ih =>
    intro rest count graph hle hover
    by_cases helig : eligibleEntry e
    · simp only [List.cons_append, analyzeProjectGo, helig, if_pos]
      by_cases hcnt : maxFiles < count + 1
      · simp [hcnt]
      · have hle' : count + 1 ≤ maxFiles := by omega
        have hover' : maxFiles < (count + 1) + (pre.filter eligibleEntry).length := by
          rw [List.filter_cons, if_pos helig] at hover
          simp only [List.length_cons] at hover
          omega
        by_cases hr : e.readable
        · simp only [hcnt, if_false, hr, if_pos]
          exact ih rest (count + 1) _ hle' hover'
        · simp only [hcnt, if_false, hr, Bool.false_eq_true, if_false]
          exact ih rest (count + 1) graph hle' hover'
    · simp only [List.cons_append, analyzeProjectGo, helig, Bool.false_eq_true, if_false]
      have hover' : maxFiles < count + (pre.filter eligibleEntry).length := by
        rw [List.filter_cons, if_neg helig] at hover
        exact hover
      exact ih rest count graph hle hover'

/-- C9: whenever the walked non-ignored, non-dotfile file count of a
prefix of the walk already exceeds the configured maximum, the whole run
aborts with the raised limit-exceeded error — independently of whatever
entries follow, so the result is never a silently truncated prefix graph. -/
theorem C9_file_limit_aborts (maxFiles : ℕ) (pre rest : List WalkEntry)
    (h : maxFiles < (pre.filter eligibleEntry).length) :
    analyzeProject maxFiles (pre ++ rest) =
      Except.error "Project exceeds file limit." :=
  analyzeProjectGo_error_of_over maxFiles pre rest 0 [] (Nat.zero_le _) (by omega)

def eW9a : WalkEntry := ⟨"proj/src", "main.py", true, ["os"]⟩

def eW9b : WalkEntry := ⟨"proj/src", "util.py", false, []⟩

theorem C9_file_limit_aborts_witness :
    analyzeProject 1 ([eW9a, eW9b] ++ [⟨"proj", "late.py", true, []⟩]) =
      Except.error "Project exceeds file limit." :=
  C9_file_limit_aborts 1 [eW9a, eW9b] [⟨"proj", "late.py", true, []⟩] (by decide)

/-! Section: LLM context optimizer (`llm_optimization.py`) -/

/-- Model of `TokenEstimate` dataclass fields (llm_optimization.py lines 12-18). -/
structure TokenEstimate where
  code_tokens : ℤ
  comments_tokens : ℤ
  documentation_tokens : ℤ
  total_tokens : ℤ
deriving Repr, DecidableEq

/-- Dataclass construction followed by `__post_init__` (lines 20-22):
a zero `total_tokens` is replaced by the sum of the three categories. -/
def mkTokenEstimate (c m d t : ℤ) : TokenEstimate :=
  if t = 0 then ⟨c, m, d, c + m + d⟩ else ⟨c, m, d, t⟩

/-- Model of `ContextChunk` dataclass (lines 24-33). -/
structure ContextChunk where
  chunk_id : String
  files : List String
  content_summary : String
  token_estimate : TokenEstimate
  priority_score : ℚ
  dependencies : List String
  context_type : String
deriving Repr, DecidableEq

/-- One entry of `self.llm_profiles` (lines 47-66). -/
structure LLMProfile where
  max_tokens : ℕ
  optimal_chunk_size : ℕ
  attention_decay : ℚ
  prefers_structured : Bool
deriving Repr, DecidableEq

def claudeProfile : LLMProfile := ⟨200000, 8000, 0.95, true⟩

def gpt4Profile : LLMProfile := ⟨128000, 6000, 0.90, true⟩

def genericProfile : LLMProfile := ⟨32000, 4000, 0.85, false⟩

/-- Model of `dep_graph.get(f, [])`. -/
def lookupDeps (g : List (String × List String)) (f : String) : List String :=
  (g.lookup f).getD []

/-- Model of `file_tokens.get(f, TokenEstimate(0,0,0,0))` (lines 879-881). -/
def lookupTE (m : List (String × TokenEstimate)) (f : String) : TokenEstimate :=
  (m.lookup f).getD (mkTokenEstimate 0 0 0 0)

/-- Model of `_estimate_file_tokens` (lines 132-151 and 723-748): the
categorisation of a file's lines into code/comment/documentation reads
file contents (I/O) and is modelled by `est`; `none` models the
`except` fallback estimate (lines 745-748).  Both branches construct
`total_tokens` as the sum of the three categories (lines 738-743). -/
def estimateFileTokens (est : String → Option (ℤ × ℤ × ℤ)) (p : String) : TokenEstimate :=
  match est p with
  | some (c, m, d) => mkTokenEstimate c m d (c + m + d)
  | none => mkTokenEstimate 500 100 50 650

/-- Model of `_estimate_all_file_tokens` (lines 111-130).  The per-run
`token_estimates_cache` stores exactly the values it later returns, so it
does not change the produced map. -/
def estimateAllFileTokens (est : String → Option (ℤ × ℤ × ℤ)) (paths : List String) :
    List (String × TokenEstimate) :=
  paths.map (fun p => (p, estimateFileTokens est p))

/-- Model of `dependencies.add(other_file)`: sets keep one copy per element; the
model records the insertion order of the distinct elements. -/
def insertNew (l : List String) (x : String) : List String :=
  if l.contains x then l else l ++ [x]

/-- The set built by `_find_chunk_dependencies` (lines 228-240), as the
insertion-ordered list of its distinct elements: for every file of the
chunk, every extracted dependency token, and every other graph file whose
path contains the token, that other file is added. -/
def chunkDepSetList (files : List String) (g : List (String × List String)) : List String :=
  files.foldl
    (fun acc f =>
      (lookupDeps g f).foldl
        (fun acc2 dep =>
          (g.map Prod.fst).foldl
            (fun acc3 other =>
              if !(files.contains other) && strContains other dep then insertNew acc3 other
              else acc3)
            acc2)
        acc)
    []

/-- Model of `_find_chunk_dependencies` returns `list(dependencies)`: CPython
enumerates the set in a hash-seed-dependent order, modelled by the
`order` parameter; an admissible order is any permutation of the
elements. -/
def findChunkDependencies (order : List String → List String) (files : List String)
    (g : List (String × List String)) : List String :=
  order (chunkDepSetList files g)

/-- Model of `_calculate_chunk_priority` (lines 172-202): average complexity of the
chunk's files (0 when no scores are supplied, 1 when the chunk is empty),
plus 0.1 per outgoing/incoming dependency, plus name-keyword bonuses. -/
def calculateChunkPriority (files : List String) (g : List (String × List String))
    (cs : Option (List (String × ℚ))) : ℚ :=
  let avg_complexity : ℚ :=
    match cs with
    | some scores =>
        if scores.isEmpty then 0
        else
          let complexities := files.map (fun f => ((scores.lookup f).getD 1))
          if complexities.isEmpty then 1 else complexities.sum / (complexities.length : ℚ)
    | none => 0
  let outgoing := (files.map (fun f => (lookupDeps g f).length)).sum
  let incoming := (g.map
    (fun p =>
      if files.contains p.1 then 0
      else (p.2.filter (fun dep => files.any (fun f => strContains f dep))).length)).sum
  let total_deps := outgoing + incoming
  let type_bonus : ℚ := (files.map (fun f =>
    if ["main", "index", "app", "core"].any (fun kw => strContains f.toLower kw) then (5 : ℚ)
    else if ["util", "helper", "config"].any (fun kw => strContains f.toLower kw) then 2
    else 0)).sum
  avg_complexity + ((total_deps : ℚ) * 0.1) + type_bonus

/-- Model of `file_indicators` (lines 207-212), in source order. -/
def fileIndicators : List (String × List String) :=
  [("core", ["main", "index", "app", "core", "engine", "manager"]),
   ("supporting", ["util", "helper", "lib", "common", "shared"]),
   ("documentation", ["readme", "doc", "guide", ".md"]),
   ("tests", ["test", "spec", "__test__", ".test.", ".spec."])]

/-- Model of `type_scores[context_type] += 1` on an insertion-ordered
`defaultdict(int)`. -/
def bumpScore : List (String × ℕ) → String → List (String × ℕ)
  | [], key => [(key, 1)]
  | (k, v) :: rest, key =>
      if k = key then (k, v + 1) :: rest else (k, v) :: bumpScore rest key

/-- Model of `_determine_context_type` (lines 204-226): count indicator hits per
type and return the first key attaining the maximal count (Python `max`
over the insertion-ordered items), defaulting to `core`. -/
def determineContextType (files : List String) : String :=
  let type_scores := files.foldl
    (fun acc f =>
      fileIndicators.foldl
        (fun acc2 p =>
          p.2.foldl
            (fun acc3 ind => if strContains f.toLower ind then bumpScore acc3 p.1 else acc3)
            acc2)
        acc)
    []
  match type_scores with
  | [] => "core"
  | (k, v) :: rest => (rest.foldl (fun best p => if best.2 < p.2 then p else best) (k, v)).1

/-- Characters of a path after its final '/': `os.path.basename` on a
POSIX path. -/
def afterLastSlash (cs : List Char) : List Char :=
  cs.foldl (fun acc c => if c = '/' then [] else acc ++ [c]) []

/-- Model of `os.path.basename`. -/
def pyBasename (p : String) : String := String.mk (afterLastSlash p.toList)

/-- Index of the last '.' in a character list, if any. -/
def lastDotIndex (cs : List Char) : Option ℕ :=
  ((cs.enum.filter (fun q => decide (q.2 = '.'))).map Prod.fst).getLast?

/-- Model of `os.path.splitext(p)[1]`: the suffix of the basename from its
last '.' on, provided some earlier basename character is not a dot (so a
dotfile like `.bashrc` has no extension). -/
def pyExtOf (p : String) : String :=
  match lastDotIndex (afterLastSlash p.toList) with
  | none => ""
  | some d =>
      if ((afterLastSlash p.toList).take d).any (fun c => decide (c ≠ '.')) then
        String.mk ((afterLastSlash p.toList).drop d)
      else ""

/-- The `main_purposes` list built by `_generate_content_summary`
(llm_optimization.py lines 247-265): one purpose string per file whose
lower-cased basename matches the first applicable keyword group. -/
def mainPurposes (files : List String) : List String :=
  files.foldl
    (fun acc file =>
      if ["main", "index", "app"].any (fun kw => strContains (pyBasename file).toLower kw) then
        acc ++ ["main application logic"]
      else if ["util", "helper"].any
          (fun kw => strContains (pyBasename file).toLower kw) then
        acc ++ ["utility functions"]
      else if ["config", "setting"].any
          (fun kw => strContains (pyBasename file).toLower kw) then
        acc ++ ["configuration"]
      else if ["test", "spec"].any (fun kw => strContains (pyBasename file).toLower kw) then
        acc ++ ["tests"]
      else if ["model", "data"].any (fun kw => strContains (pyBasename file).toLower kw) then
        acc ++ ["data models"]
      else if ["api", "service"].any
          (fun kw => strContains (pyBasename file).toLower kw) then
        acc ++ ["API services"]
      else acc)
    []

/-- The CPython set `set(main_purposes)` (line 280) as the insertion-ordered
list of its distinct elements. -/
def purposeSetList (files : List String) : List String :=
  (mainPurposes files).foldl insertNew []

/-- `file_types = Counter()` over the files' extensions (lines 246-251), as
an insertion-ordered count list. -/
def fileTypeCounts (files : List String) : List (String × ℕ) :=
  files.foldl (fun acc f => bumpScore acc (pyExtOf f)) []

/-- `Counter.most_common(1)[0][0]` (line 276): the first-inserted key of
maximal count (CPython `most_common` sorts stably by descending count). -/
def firstMaxKey : List (String × ℕ) → Option String
  | [] => none
  | (k, v) :: rest =>
      some ((rest.foldl (fun best q => if best.2 < q.2 then q else best) (k, v)).1)

/-- The deterministic rendering of `_generate_content_summary`
(lines 267-290), given the enumeration `unique_purposes` of the purpose
set chosen by the process hash seed. -/
def renderContentSummary (files : List String) (g : List (String × List String))
    (unique_purposes : List String) : String :=
  let part1 : List String :=
    if files.length = 1 then ["Single file: " ++ pyBasename (files.headD "")]
    else [Nat.repr files.length ++ " files"]
  let typePart : List String :=
    match firstMaxKey (fileTypeCounts files) with
    | some main_type => ["primarily " ++ main_type ++ " files"]
    | none => []
  let purposePart : List String :=
    if (mainPurposes files).isEmpty then []
    else if unique_purposes.length = 1 then ["containing " ++ unique_purposes.headD ""]
    else ["containing " ++ String.intercalate ", " (unique_purposes.take 2)]
  let total_deps := (files.map (fun f => (lookupDeps g f).length)).sum
  let depPart : List String :=
    if 0 < total_deps then ["with " ++ Nat.repr total_deps ++ " dependencies"] else []
  String.intercalate "; " (part1 ++ typePart ++ purposePart ++ depPart)

/-- Model of `_generate_content_summary` (lines 242-290): `porder` is the
hash-seed-dependent enumeration order of `list(set(main_purposes))` at
line 280, constrained to permutations in the theorems. -/
def generateContentSummary (porder : List String → List String) (files : List String)
    (g : List (String × List String)) : String :=
  renderContentSummary files g (porder (purposeSetList files))

/-- Model of `_create_single_chunk` (lines 872-910).  `order` and `porder`
are the set-enumeration orders used inside `_find_chunk_dependencies` and
`_generate_content_summary` respectively. -/
def createSingleChunk (order porder : List String → List String)
    (chunk_id : String) (files : List String) (g : List (String × List String))
    (file_tokens : List (String × TokenEstimate)) (cs : Option (List (String × ℚ))) :
    ContextChunk :=
  let total_code := (files.map (fun f => (lookupTE file_tokens f).code_tokens)).sum
  let total_comment := (files.map (fun f => (lookupTE file_tokens f).comments_tokens)).sum
  let total_doc := (files.map (fun f => (lookupTE file_tokens f).documentation_tokens)).sum
  { chunk_id := chunk_id
    files := files
    content_summary := generateContentSummary porder files g
    token_estimate := mkTokenEstimate total_code total_comment total_doc
      (total_code + total_comment + total_doc)
    priority_score := calculateChunkPriority files g cs
    dependencies := findChunkDependencies order files g
    context_type := determineContextType files }

/-! Section: Chunk ordering (`_optimize_chunk_ordering`, lines 292-337) -/

/-- Model of `_get_context_type_priority` (lines 339-347), with default 2. -/
def contextTypePriority (t : String) : ℕ :=
  if t = "core" then 0
  else if t = "supporting" then 1
  else if t = "documentation" then 2
  else if t = "tests" then 3
  else 2

/-- The `chunk_deps[chunk.chunk_id]` list (lines 297-305): for each
dependency file, the first other chunk containing it (`break` after the
first hit). -/
def chunkDepIds (chunks : List ContextChunk) (c : ContextChunk) : List String :=
  c.dependencies.foldl
    (fun acc dep =>
      match chunks.find? (fun o => o.files.contains dep && !(o.chunk_id == c.chunk_id)) with
      | some o => acc ++ [o.chunk_id]
      | none => acc)
    []

/-- Lookup of `chunk_deps` by chunk id; with distinct chunk ids this is
the dictionary built at lines 297-305. -/
def chunkDepsTable (chunks : List ContextChunk) (cid : String) : List String :=
  match chunks.find? (fun c => c.chunk_id == cid) with
  | some c => chunkDepIds chunks c
  | none => []

/-- First element attaining the optimum of a strict "better" relation:
the shape of both Python `max(..., key=...)` (first maximal element) and
`sorted(...)[0]` for a stable sort (first minimal element). -/
def pickBy (better : ContextChunk → ContextChunk → Bool) :
    List ContextChunk → Option ContextChunk
  | [] => none
  | x :: xs => some (xs.foldl (fun b c => if better b c then c else b) x)

/-- The sort key of line 327-330: `(context-type priority, -priority_score)`. -/
def chunkSortKey (c : ContextChunk) : ℕ × ℚ :=
  (contextTypePriority c.context_type, -c.priority_score)

/-- Lexicographic strict comparison of sort keys (Python tuple `<`). -/
def keyLtB (a b : ℕ × ℚ) : Bool :=
  decide (a.1 < b.1) || (decide (a.1 = b.1) && decide (a.2 < b.2))

/-- One iteration of the `while remaining_chunks` loop (lines 312-335):
ready candidates (all dependencies processed), else the highest-priority
remaining chunk (cycle break), then stable sort by
`(type priority, -priority_score)` and take the first. -/
def selectChunk (deps : String → List String) (remaining : List ContextChunk)
    (processed : List String) : Option ContextChunk :=
  let candidates := remaining.filter
    (fun c => (deps c.chunk_id).all (fun d => processed.contains d))
  let candidates :=
    if candidates.isEmpty then
      (pickBy (fun b c => decide (b.priority_score < c.priority_score)) remaining).toList
    else candidates
  pickBy (fun b c => keyLtB (chunkSortKey c) (chunkSortKey b)) candidates

/-- The `while` loop of `_optimize_chunk_ordering`, with fuel
(`chunks.length` steps always suffice because each iteration removes the
selected chunk). -/
def orderLoop (deps : String → List String) :
    ℕ → List ContextChunk → List String → List ContextChunk
  | 0, _, _ => []
  | _ + 1, [], _ => []
  | fuel + 1, remaining, processed =>
      match selectChunk deps remaining processed with
      | none => []
      | some sel =>
          sel :: orderLoop deps fuel
            (remaining.filter (fun c => decide (c.chunk_id ≠ sel.chunk_id)))
            (sel.chunk_id :: processed)

/-- Model of `_optimize_chunk_ordering` (lines 292-337). -/
def optimizeChunkOrdering (chunks : List ContextChunk) : List ContextChunk :=
  orderLoop (chunkDepsTable chunks) chunks.length chunks []

/-! Section: Progressive loading phases (`_create_progressive_loading_strategy`,
lines 502-553) -/

/-- A phase record of lines 524-530. -/
structure LoadingPhase where
  phase : ℕ
  chunks : List String
  total_tokens : ℤ
  loading_priority : ℚ
  attention_weight : ℚ
deriving Repr, DecidableEq

/-- Model of `_calculate_phase_priority` (lines 555-562). -/
def calculatePhasePriority (chunk_ids : List String) (all : List ContextChunk) : ℚ :=
  let phase_chunks := all.filter (fun c => chunk_ids.contains c.chunk_id)
  if phase_chunks.isEmpty then 0
  else ((phase_chunks.map (fun c => c.priority_score)).sum) / (phase_chunks.length : ℚ)

/-- The phase dict literal of lines 524-530 / 539-545. -/
def mkPhase (allChunks : List ContextChunk) (decay : ℚ) (num : ℕ) (cids : List String)
    (tok : ℤ) : LoadingPhase :=
  { phase := num
    chunks := cids
    total_tokens := tok
    loading_priority := calculatePhasePriority cids allChunks
    attention_weight := decay ^ (num - 1) }

/-- The phase-building loop of lines 509-545: greedily pack ordered chunks
into phases capped at `max_tokens // 3`; a chunk that does not fit closes
the current phase (when non-empty) and starts a new one. -/
def phasesLoop (allChunks : List ContextChunk) (cap : ℤ) (decay : ℚ) :
    List ContextChunk → List String → ℤ → ℕ → List LoadingPhase → List LoadingPhase
  | [], curC, curT, num, phases =>
      if curC.isEmpty then phases
      else phases ++ [mkPhase allChunks decay num curC curT]
  | c :: rest, curC, curT, num, phases =>
      let t := c.token_estimate.total_tokens
      if curT + t ≤ cap then
        phasesLoop allChunks cap decay rest (curC ++ [c.chunk_id]) (curT + t) num phases
      else if curC.isEmpty then
        phasesLoop allChunks cap decay rest [c.chunk_id] t num phases
      else
        phasesLoop allChunks cap decay rest [c.chunk_id] t (num + 1)
          (phases ++ [mkPhase allChunks decay num curC curT])

/-- The `loading_phases` list produced by
`_create_progressive_loading_strategy` (lines 502-553). -/
def createLoadingPhases (chunks : List ContextChunk) (profile : LLMProfile) :
    List LoadingPhase :=
  phasesLoop chunks ((profile.max_tokens : ℤ) / 3) profile.attention_decay chunks [] 0 1 []

/-! Section: Claim C4: chunk token conservation -/

theorem sum_map_add3 (files : List String) (f1 f2 f3 : String → ℤ) :
    (files.map (fun f => f1 f + f2 f + f3 f)).sum =
      (files.map f1).sum + (files.map f2).sum + (files.map f3).sum := by
  induction files with
  | nil => simp
  | cons a rest ih =>
    simp only [List.map_cons, List.sum_cons, ih]
    ring

theorem estimateFileTokens_consistent (est : String → Option (ℤ × ℤ × ℤ)) (p : String) :
    (estimateFileTokens est p).total_tokens =
      (estimateFileTokens est p).code_tokens + (estimateFileTokens est p).comments_tokens +
        (estimateFileTokens est p).documentation_tokens := by
  unfold estimateFileTokens
  cases est p with
  | none => rfl
  | some trip =>
    obtain ⟨c, md⟩ := trip
    obtain ⟨m, d⟩ := md
    simp only [mkTokenEstimate]
    split <;> rfl

theorem lookup_map_mk_estimate (gf : String → TokenEstimate) (f : String) :
    ∀ (paths : List String) (te : TokenEstimate),
      (paths.map (fun p => (p, gf p))).lookup f = some te → ∃ p, te = gf p := by
  intro paths
  induction paths with
  | nil => intro te h; simp [List.lookup] at h
  | cons q rest ih =>
    intro te h
    simp only [List.map_cons, List.lookup] at h
    cases hq : (f == q) with
    | true =>
      rw [hq] at h
      exact ⟨q, (Option.some.inj h).symm⟩
    | false =>
      rw [hq] at h
      exact ih te h

theorem lookupTE_estimator_consistent (est : String → Option (ℤ × ℤ × ℤ))
    (paths : List String) (f : String) :
    (lookupTE (estimateAllFileTokens est paths) f).total_tokens =
      (lookupTE (estimateAllFileTokens est paths) f).code_tokens +
        (lookupTE (estimateAllFileTokens est paths) f).comments_tokens +
        (lookupTE (estimateAllFileTokens est paths) f).documentation_tokens := by
  unfold lookupTE estimateAllFileTokens
  cases hl : (paths.map (fun p => (p, estimateFileTokens est p))).lookup f with
  | none => rfl
  | some te =>
    obtain ⟨p, hp⟩ := lookup_map_mk_estimate (estimateFileTokens est) f paths te hl
    subst hp
    simpa using estimateFileTokens_consistent est p

/-- C4: every `ContextChunk` built by `_create_single_chunk` from a
token map produced by `_estimate_all_file_tokens` has
`token_estimate.total_tokens` equal to the sum of the per-file
`total_tokens` of its member files, files absent from the map counting as
zero (the `TokenEstimate(0,0,0,0)` default). -/
theorem C4_chunk_token_conservation (est : String → Option (ℤ × ℤ × ℤ))
    (order porder : List String → List String) (chunk_id : String)
    (paths files : List String) (g : List (String × List String))
    (cs : Option (List (String × ℚ))) :
    (createSingleChunk order porder chunk_id files g
        (estimateAllFileTokens est paths) cs).token_estimate.total_tokens =
      (files.map
        (fun f => (lookupTE (estimateAllFileTokens est paths) f).total_tokens)).sum := by
  have h1 : (createSingleChunk order porder chunk_id files g
      (estimateAllFileTokens est paths) cs).token_estimate.total_tokens =
      (files.map (fun f => (lookupTE (estimateAllFileTokens est paths) f).code_tokens)).sum +
        (files.map
          (fun f => (lookupTE (estimateAllFileTokens est paths) f).comments_tokens)).sum +
        (files.map
          (fun f => (lookupTE (estimateAllFileTokens est paths) f).documentation_tokens)).sum := by
    simp only [createSingleChunk, mkTokenEstimate]
    split <;> rfl
  rw [h1, ← sum_map_add3]
  apply congrArg List.sum
  apply List.map_congr_left
  intro f _
  exact (lookupTE_estimator_consistent est paths f).symm

/-! Section: Claim C5: determinism of the pipeline -/

def gC5ce : List (String × List String) :=
  [("a.py", ["x", "y"]), ("xlib.py", []), ("ylib.py", [])]

/-- C5 counterexample: `identity` and `reverse` are both admissible
enumeration orders of a two-element CPython string set (set iteration
order varies with the per-process hash seed), yet they give different
`dependencies` lists for the same input — so the serialized context
chunks of two runs need not be byte-identical; the two lists agree as
sets (second conjunct). -/
theorem C5_determinism_counterexample :
    findChunkDependencies id ["a.py"] gC5ce ≠
        findChunkDependencies List.reverse ["a.py"] gC5ce
    ∧ (findChunkDependencies id ["a.py"] gC5ce).Perm
        (findChunkDependencies List.reverse ["a.py"] gC5ce) := by
  constructor
  · decide
  · decide

theorem all_eq_of_mem_iff {l1 l2 : List String} (h : ∀ d, d ∈ l1 ↔ d ∈ l2)
    (p : String → Bool) : l1.all p = l2.all p := by
  cases hall : l2.all p with
  | false =>
    obtain ⟨x, hx, hpx⟩ := List.all_eq_false.1 hall
    exact List.all_eq_false.2 ⟨x, (h x).2 hx, hpx⟩
  | true =>
    rw [List.all_eq_true] at hall ⊢
    exact fun x hx => hall x ((h x).1 hx)

theorem orderLoop_deps_membership_ext (deps1 deps2 : String → List String)
    (hmem : ∀ cid d, d ∈ deps1 cid ↔ d ∈ deps2 cid) :
    ∀ (fuel : ℕ) (remaining : List ContextChunk) (processed : List String),
      orderLoop deps1 fuel remaining processed = orderLoop deps2 fuel remaining processed := by
  intro fuel
  induction fuel with
  | zero => intro remaining processed; rfl
  | succ f ih =>
    intro remaining processed
    cases remaining with
    | nil => rfl
    | cons c rest =>
      have hsel : selectChunk deps1 (c :: rest) processed =
          selectChunk deps2 (c :: rest) processed := by
        unfold selectChunk
        have hfilter : (c :: rest).filter
            (fun x => (deps1 x.chunk_id).all (fun d => processed.contains d)) =
            (c :: rest).filter
              (fun x => (deps2 x.chunk_id).all (fun d => processed.contains d)) := by
          apply List.filter_congr
          intro x _
          exact all_eq_of_mem_iff (hmem x.chunk_id) (fun d => processed.contains d)
        rw [hfilter]
      rw [orderLoop, orderLoop, hsel]
      · cases selectChunk deps2 (c :: rest) processed with
        | none => rfl
        | some sel =>
          dsimp only
          rw [ih]
      · intro h; cases h
      · intro h; cases h

/-- C5 (amended): two runs with identical input and configuration produce
identical clusters and identical chunk ordering, and agree on every chunk
field except the two derived from CPython set-enumeration order.  For any
two admissible enumeration orders of the dependency set (`o1`, `o2`) and
of the `unique_purposes` set inside `_generate_content_summary`
(`s1`, `s2`), the chunks built by `_create_single_chunk` have equal
`chunk_id`, `files`, `token_estimate`, `priority_score` and
`context_type`; their `dependencies` lists are permutations of each other
(the same set); and their `content_summary` strings are the renderings of
two permuted `unique_purposes` lists (`list(set(main_purposes))`,
llm_optimization.py line 280), so the summary too is determined up to
that enumeration order.  Finally, `_optimize_chunk_ordering` consumes the
dependency lists only through membership, so the chunk order is the same
under any two dependency tables that agree as sets. -/
theorem C5_determinism_amended (o1 o2 s1 s2 : List String → List String)
    (ho1 : ∀ l : List String, (o1 l).Perm l) (ho2 : ∀ l : List String, (o2 l).Perm l)
    (hs1 : ∀ l : List String, (s1 l).Perm l) (hs2 : ∀ l : List String, (s2 l).Perm l)
    (chunk_id : String) (files : List String) (g : List (String × List String))
    (file_tokens : List (String × TokenEstimate)) (cs : Option (List (String × ℚ))) :
    (createSingleChunk o1 s1 chunk_id files g file_tokens cs).chunk_id =
        (createSingleChunk o2 s2 chunk_id files g file_tokens cs).chunk_id
    ∧ (createSingleChunk o1 s1 chunk_id files g file_tokens cs).files =
        (createSingleChunk o2 s2 chunk_id files g file_tokens cs).files
    ∧ (createSingleChunk o1 s1 chunk_id files g file_tokens cs).token_estimate =
        (createSingleChunk o2 s2 chunk_id files g file_tokens cs).token_estimate
    ∧ (createSingleChunk o1 s1 chunk_id files g file_tokens cs).priority_score =
        (createSingleChunk o2 s2 chunk_id files g file_tokens cs).priority_score
    ∧ (createSingleChunk o1 s1 chunk_id files g file_tokens cs).context_type =
        (createSingleChunk o2 s2 chunk_id files g file_tokens cs).context_type
    ∧ ((createSingleChunk o1 s1 chunk_id files g file_tokens cs).dependencies).Perm
        ((createSingleChunk o2 s2 chunk_id files g file_tokens cs).dependencies)
    ∧ (∃ u1 u2 : List String, u1.Perm u2
        ∧ (createSingleChunk o1 s1 chunk_id files g file_tokens cs).content_summary =
            renderContentSummary files g u1
        ∧ (createSingleChunk o2 s2 chunk_id files g file_tokens cs).content_summary =
            renderContentSummary files g u2)
    ∧ ∀ deps1 deps2 : String → List String,
        (∀ cid d, d ∈ deps1 cid ↔ d ∈ deps2 cid) →
        ∀ (fuel : ℕ) (remaining : List ContextChunk) (processed : List String),
          orderLoop deps1 fuel remaining processed =
            orderLoop deps2 fuel remaining processed := by
  refine ⟨rfl, rfl, rfl, rfl, rfl, ?_, ?_, orderLoop_deps_membership_ext⟩
  · exact (ho1 (chunkDepSetList files g)).trans (ho2 (chunkDepSetList files g)).symm
  · exact ⟨s1 (purposeSetList files), s2 (purposeSetList files),
      (hs1 (purposeSetList files)).trans (hs2 (purposeSetList files)).symm, rfl, rfl⟩

def gC5w : List (String × List String) := [("b.py", ["z"]), ("zmod.py", [])]

theorem C5_determinism_amended_witness :
    ((createSingleChunk id id "chunk_0" ["b.py"] gC5w [] none).dependencies).Perm
      ((createSingleChunk id id "chunk_0" ["b.py"] gC5w [] none).dependencies) :=
  (C5_determinism_amended id id id id
    (fun l => List.Perm.refl l) (fun l => List.Perm.refl l)
    (fun l => List.Perm.refl l) (fun l => List.Perm.refl l)
    "chunk_0" ["b.py"] gC5w [] none).2.2.2.2.2.1

/-! Section: Claim C7: chunk ordering lemmas -/

theorem foldl_pick_mem (better : ContextChunk → ContextChunk → Bool) :
    ∀ (xs : List ContextChunk) (b : ContextChunk),
      xs.foldl (fun b c => if better b c then c else b) b ∈ b :: xs := by
  intro xs
  induction xs with
  | nil => intro b; exact List.mem_cons_self _ _
  | cons c cs ih =>
    intro b
    simp only [List.foldl_cons]
    by_cases hbc : better b c = true
    · rw [if_pos hbc]
      exact List.mem_cons_of_mem b (ih c)
    · rw [if_neg hbc]
      rcases List.mem_cons.1 (ih b) with h | h
      · rw [h]; exact List.mem_cons_self _ _
      · exact List.mem_cons_of_mem b (List.mem_cons_of_mem c h)

theorem pickBy_mem (better : ContextChunk → ContextChunk → Bool)
    (l : List ContextChunk) (x : ContextChunk) (h : pickBy better l = some x) : x ∈ l := by
  cases l with
  | nil => simp [pickBy] at h
  | cons a t =>
    simp only [pickBy, Option.some.injEq] at h
    rw [← h]
    exact foldl_pick_mem better t a

theorem length_filter_lt_of_mem_not (p : ContextChunk → Bool) :
    ∀ (l : List ContextChunk) (x : ContextChunk), x ∈ l → p x = false →
      (l.filter p).length < l.length := by
  intro l
  induction l with
  | nil => intro x hx; cases hx
  | cons a t ih =>
    intro x hx hpx
    rcases List.mem_cons.1 hx with rfl | hxt
    · rw [List.filter_cons, hpx]
      simp only [Bool.false_eq_true, if_false, List.length_cons]
      exact Nat.lt_succ_of_le (List.length_filter_le p t)
    · rw [List.filter_cons]
      cases hpa : p a
      · simp only [Bool.false_eq_true, if_false, List.length_cons]
        exact Nat.lt_succ_of_lt (ih x hxt hpx)
      · simp only [if_true, List.length_cons]
        exact Nat.succ_lt_succ (ih x hxt hpx)

theorem perm_cons_filter_of_nodup :
    ∀ (l : List ContextChunk),
      (l.map ContextChunk.chunk_id).Nodup → ∀ a ∈ l,
        l.Perm (a :: l.filter (fun c => decide (c.chunk_id ≠ a.chunk_id))) := by
  intro l
  induction l with
  | nil => intro _ a ha; cases ha
  | cons b t ih =>
    intro hnd a ha
    have hndt : (t.map ContextChunk.chunk_id).Nodup := (List.nodup_cons.1 hnd).2
    have hbt : b.chunk_id ∉ t.map ContextChunk.chunk_id := (List.nodup_cons.1 hnd).1
    rcases List.mem_cons.1 ha with rfl | hat
    · have hft : t.filter (fun c => decide (c.chunk_id ≠ a.chunk_id)) = t := by
        apply List.filter_eq_self.2
        intro c hc
        apply decide_eq_true
        intro he
        exact hbt (he ▸ List.mem_map_of_mem ContextChunk.chunk_id hc)
      rw [List.filter_cons]
      rw [show (decide (a.chunk_id ≠ a.chunk_id)) = false by simp]
      simp only [Bool.false_eq_true, if_false]
      rw [hft]
    · have hfb : b.chunk_id ≠ a.chunk_id := by
        intro he
        exact hbt (he ▸ List.mem_map_of_mem ContextChunk.chunk_id hat)
      have hperm := ih hndt a hat
      rw [List.filter_cons]
      have hkeep : (decide (b.chunk_id ≠ a.chunk_id)) = true := decide_eq_true hfb
      rw [hkeep]
      simp only [if_true]
      exact (hperm.cons b).trans (List.Perm.swap a b _)

theorem exists_min_rank (rank : String → ℕ) :
    ∀ (l : List ContextChunk), l ≠ [] →
      ∃ a ∈ l, ∀ b ∈ l, rank a.chunk_id ≤ rank b.chunk_id := by
  intro l
  induction l with
  | nil => intro h; exact absurd rfl h
  | cons x xs ih =>
    intro _
    by_cases hxs : xs = []
    · subst hxs
      refine ⟨x, List.mem_cons_self _ _, ?_⟩
      intro b hb
      rcases List.mem_cons.1 hb with rfl | hb
      · exact le_rfl
      · cases hb
    · obtain ⟨a, ha, hmin⟩ := ih hxs
      by_cases hle : rank x.chunk_id ≤ rank a.chunk_id
      · refine ⟨x, List.mem_cons_self _ _, ?_⟩
        intro b hb
        rcases List.mem_cons.1 hb with rfl | hb
        · exact le_rfl
        · exact hle.trans (hmin b hb)
      · refine ⟨a, List.mem_cons_of_mem _ ha, ?_⟩
        intro b hb
        rcases List.mem_cons.1 hb with rfl | hb
        · omega
        · exact hmin b hb

theorem selectChunk_spec (deps : String → List String) (remaining : List ContextChunk)
    (processed : List String) (hne : remaining ≠ []) :
    ∃ sel, selectChunk deps remaining processed = some sel ∧ sel ∈ remaining ∧
      (remaining.filter
          (fun c => (deps c.chunk_id).all (fun d => processed.contains d)) ≠ [] →
        (deps sel.chunk_id).all (fun d => processed.contains d) = true) := by
  simp only [selectChunk]
  cases hc : remaining.filter
      (fun c => (deps c.chunk_id).all (fun d => processed.contains d)) with
  | nil =>
    simp only [hc, List.isEmpty_nil, if_pos]
    cases remaining with
    | nil => exact absurd rfl hne
    | cons a t =>
      have h1 : pickBy (fun b c => decide (b.priority_score < c.priority_score)) (a :: t) =
          some (t.foldl
            (fun b c => if decide (b.priority_score < c.priority_score) then c else b) a) :=
        rfl
      refine ⟨t.foldl
        (fun b c => if decide (b.priority_score < c.priority_score) then c else b) a,
        ?_, foldl_pick_mem _ t a, ?_⟩
      · rw [h1]
        rfl
      · intro hcon
        exact absurd rfl hcon
  | cons q qs =>
    simp only [hc, List.isEmpty_cons, Bool.false_eq_true, if_false]
    refine ⟨qs.foldl
      (fun b c => if keyLtB (chunkSortKey c) (chunkSortKey b) then c else b) q,
      rfl, ?_, ?_⟩
    · have hmem := foldl_pick_mem
        (fun b c => keyLtB (chunkSortKey c) (chunkSortKey b)) qs q
      have hmf : qs.foldl
          (fun b c => if keyLtB (chunkSortKey c) (chunkSortKey b) then c else b) q ∈
          remaining.filter
            (fun c => (deps c.chunk_id).all (fun d => processed.contains d)) := by
        rw [hc]; exact hmem
      exact List.mem_of_mem_filter hmf
    · intro _
      have hmem := foldl_pick_mem
        (fun b c => keyLtB (chunkSortKey c) (chunkSortKey b)) qs q
      have hmf : qs.foldl
          (fun b c => if keyLtB (chunkSortKey c) (chunkSortKey b) then c else b) q ∈
          remaining.filter
            (fun c => (deps c.chunk_id).all (fun d => processed.contains d)) := by
        rw [hc]; exact hmem
      exact (List.mem_filter.1 hmf).2

theorem orderLoop_cons (deps : String → List String) (fuel : ℕ) (c : ContextChunk)
    (rest : List ContextChunk) (processed : List String) :
    orderLoop deps (fuel + 1) (c :: rest) processed =
      match selectChunk deps (c :: rest) processed with
      | none => []
      | some sel => sel :: orderLoop deps fuel
          ((c :: rest).filter (fun x => decide (x.chunk_id ≠ sel.chunk_id)))
          (sel.chunk_id :: processed) := rfl

theorem orderLoop_perm (deps : String → List String) :
    ∀ (fuel : ℕ) (remaining : List ContextChunk) (processed : List String),
      remaining.length ≤ fuel →
      (remaining.map ContextChunk.chunk_id).Nodup →
      (orderLoop deps fuel remaining processed).Perm remaining := by
  intro fuel
  induction fuel with
  | zero =>
    intro remaining processed hlen _
    have hrem : remaining = [] := List.eq_nil_of_length_eq_zero (Nat.le_zero.1 hlen)
    subst hrem
    exact List.Perm.nil
  | succ f ih =>
    intro remaining processed hlen hnd
    cases remaining with
    | nil => exact List.Perm.nil
    | cons c rest =>
      obtain ⟨sel, hsel, hmem, _⟩ := selectChunk_spec deps (c :: rest) processed (by simp)
      rw [orderLoop_cons, hsel]
      dsimp only
      have hperm := perm_cons_filter_of_nodup (c :: rest) hnd sel hmem
      have hlen2 : ((c :: rest).filter
          (fun x => decide (x.chunk_id ≠ sel.chunk_id))).length ≤ f := by
        have hl := hperm.length_eq
        simp only [List.length_cons] at hl hlen
        omega
      have hnd2 : (((c :: rest).filter
          (fun x => decide (x.chunk_id ≠ sel.chunk_id))).map ContextChunk.chunk_id).Nodup :=
        List.Nodup.sublist (List.Sublist.map _ (List.filter_sublist _)) hnd
      exact ((ih _ _ hlen2 hnd2).cons sel).trans hperm.symm

theorem exists_ready (deps : String → List String) (chunks : List ContextChunk)
    (rank : String → ℕ)
    (hrank : ∀ c ∈ chunks, ∀ d ∈ deps c.chunk_id, rank d < rank c.chunk_id)
    (hclosed : ∀ c ∈ chunks, ∀ d ∈ deps c.chunk_id, ∃ o ∈ chunks, o.chunk_id = d)
    (remaining : List ContextChunk) (processed : List String)
    (hsub : ∀ x ∈ remaining, x ∈ chunks)
    (hcover : ∀ o ∈ chunks, o.chunk_id ∈ processed ∨ o ∈ remaining)
    (hne : remaining ≠ []) :
    ∃ x ∈ remaining, (deps x.chunk_id).all (fun d => processed.contains d) = true := by
  obtain ⟨a, ha, hmin⟩ := exists_min_rank rank remaining hne
  refine ⟨a, ha, ?_⟩
  rw [List.all_eq_true]
  intro d hd
  by_contra hdp
  have hdmem : d ∉ processed := by
    intro hmem2
    exact hdp (List.elem_iff.mpr hmem2)
  obtain ⟨o, ho, hoid⟩ := hclosed a (hsub a ha) d hd
  rcases hcover o ho with hproc | hrem
  · exact hdmem (hoid ▸ hproc)
  · have h1 : rank a.chunk_id ≤ rank o.chunk_id := hmin o hrem
    have h2 : rank d < rank a.chunk_id := hrank a (hsub a ha) d hd
    rw [hoid] at h1
    omega

theorem orderLoop_topo (deps : String → List String) (chunks : List ContextChunk)
    (rank : String → ℕ)
    (hrank : ∀ c ∈ chunks, ∀ d ∈ deps c.chunk_id, rank d < rank c.chunk_id)
    (hclosed : ∀ c ∈ chunks, ∀ d ∈ deps c.chunk_id, ∃ o ∈ chunks, o.chunk_id = d) :
    ∀ (fuel : ℕ) (remaining : List ContextChunk) (processed : List String),
      remaining.length ≤ fuel →
      (∀ x ∈ remaining, x ∈ chunks) →
      (∀ o ∈ chunks, o.chunk_id ∈ processed ∨ o ∈ remaining) →
      ∀ k, ∀ hk : k < (orderLoop deps fuel remaining processed).length,
        ∀ d ∈ deps ((orderLoop deps fuel remaining processed).get ⟨k, hk⟩).chunk_id,
          d ∈ processed ∨ ∃ m, ∃ hmk : m < k,
            ((orderLoop deps fuel remaining processed).get
              ⟨m, Nat.lt_trans hmk hk⟩).chunk_id = d := by
  intro fuel
  induction fuel with
  | zero =>
    intro remaining processed hlen _ _ k hk
    have hrem : remaining = [] := List.eq_nil_of_length_eq_zero (Nat.le_zero.1 hlen)
    subst hrem
    simp [orderLoop] at hk
  | succ f ih =>
    intro remaining processed hlen hsub hcover
    cases remaining with
    | nil => intro k hk; simp [orderLoop] at hk
    | cons c rest =>
      obtain ⟨sel, hsel, hmem, hready⟩ := selectChunk_spec deps (c :: rest) processed (by simp)
      have hfilterne : (c :: rest).filter
          (fun x => (deps x.chunk_id).all (fun d => processed.contains d)) ≠ [] := by
        obtain ⟨x, hx, hxready⟩ := exists_ready deps chunks rank hrank hclosed (c :: rest)
          processed hsub hcover (by simp)
        intro hf
        have hxin : x ∈ (c :: rest).filter
            (fun x => (deps x.chunk_id).all (fun d => processed.contains d)) :=
          List.mem_filter.2 ⟨hx, hxready⟩
        rw [hf] at hxin
        cases hxin
      have hselready := hready hfilterne
      rw [orderLoop_cons, hsel]
      dsimp only
      have hlen' : ((c :: rest).filter
          (fun x => decide (x.chunk_id ≠ sel.chunk_id))).length ≤ f := by
        have hlt := length_filter_lt_of_mem_not
          (fun x => decide (x.chunk_id ≠ sel.chunk_id)) (c :: rest) sel hmem (by simp)
        simp only [List.length_cons] at hlt hlen
        omega
      have hsub' : ∀ x ∈ (c :: rest).filter
          (fun x => decide (x.chunk_id ≠ sel.chunk_id)), x ∈ chunks :=
        fun x hx => hsub x (List.mem_of_mem_filter hx)
      have hcover' : ∀ o ∈ chunks, o.chunk_id ∈ (sel.chunk_id :: processed) ∨
          o ∈ (c :: rest).filter (fun x => decide (x.chunk_id ≠ sel.chunk_id)) := by
        intro o ho
        rcases hcover o ho with h | h
        · exact Or.inl (List.mem_cons_of_mem _ h)
        · by_cases hid : o.chunk_id = sel.chunk_id
          · exact Or.inl (hid ▸ List.mem_cons_self _ _)
          · exact Or.inr (List.mem_filter.2 ⟨h, decide_eq_true hid⟩)
      intro k hk d hd
      cases k with
      | zero =>
        left
        have hget : ((sel :: orderLoop deps f
            ((c :: rest).filter (fun x => decide (x.chunk_id ≠ sel.chunk_id)))
            (sel.chunk_id :: processed)).get ⟨0, hk⟩) = sel := rfl
        rw [hget] at hd
        have := List.all_eq_true.1 hselready d hd
        exact List.elem_iff.mp this
      | succ m =>
        have hm : m < (orderLoop deps f
            ((c :: rest).filter (fun x => decide (x.chunk_id ≠ sel.chunk_id)))
            (sel.chunk_id :: processed)).length := by
          simp only [List.length_cons] at hk
          omega
        have hget : ((sel :: orderLoop deps f
            ((c :: rest).filter (fun x => decide (x.chunk_id ≠ sel.chunk_id)))
            (sel.chunk_id :: processed)).get ⟨m + 1, hk⟩) =
            (orderLoop deps f
              ((c :: rest).filter (fun x => decide (x.chunk_id ≠ sel.chunk_id)))
              (sel.chunk_id :: processed)).get ⟨m, hm⟩ := rfl
        rw [hget] at hd
        have hih := ih _ (sel.chunk_id :: processed) hlen' hsub' hcover' m hm d hd
        rcases hih with hin | ⟨m', hm'm, hgetm'⟩
        · rcases List.mem_cons.1 hin with rfl | hin2
          · right
            exact ⟨0, Nat.succ_pos m, rfl⟩
          · exact Or.inl hin2
        · right
          refine ⟨m' + 1, Nat.succ_lt_succ hm'm, ?_⟩
          exact hgetm'

theorem chunkDepIds_closed (chunks : List ContextChunk) (c : ContextChunk) :
    ∀ d ∈ chunkDepIds chunks c, ∃ o ∈ chunks, o.chunk_id = d := by
  unfold chunkDepIds
  suffices h : ∀ (depsl : List String) (acc : List String),
      (∀ d ∈ acc, ∃ o ∈ chunks, o.chunk_id = d) →
      ∀ d ∈ depsl.foldl
        (fun acc dep =>
          match chunks.find?
              (fun o => o.files.contains dep && !(o.chunk_id == c.chunk_id)) with
          | some o => acc ++ [o.chunk_id]
          | none => acc)
        acc, ∃ o ∈ chunks, o.chunk_id = d by
    intro d hd
    exact h c.dependencies [] (fun d' hd' => absurd hd' (List.not_mem_nil d')) d hd
  intro depsl
  induction depsl with
  | nil => intro acc hacc d hd; exact hacc d hd
  | cons dep rest ih =>
    intro acc hacc d hd
    simp only [List.foldl_cons] at hd
    refine ih _ ?_ d hd
    intro d' hd'
    cases hf : chunks.find?
        (fun o => o.files.contains dep && !(o.chunk_id == c.chunk_id)) with
    | none =>
      simp only [hf] at hd'
      exact hacc d' hd'
    | some o =>
      simp only [hf] at hd'
      rcases List.mem_append.1 hd' with h1 | h1
      · exact hacc d' h1
      · exact ⟨o, List.mem_of_find?_eq_some hf, (List.mem_singleton.1 h1).symm⟩

theorem chunkDepsTable_closed (chunks : List ContextChunk) (cid : String) :
    ∀ d ∈ chunkDepsTable chunks cid, ∃ o ∈ chunks, o.chunk_id = d := by
  intro d hd
  unfold chunkDepsTable at hd
  cases hf : chunks.find? (fun c => c.chunk_id == cid) with
  | none =>
    simp only [hf] at hd
    cases hd
  | some c =>
    simp only [hf] at hd
    exact chunkDepIds_closed chunks c d hd

/-- C7: with distinct chunk ids (as the optimizer generates them),
`_optimize_chunk_ordering` always returns a permutation of the input
chunks; and whenever the chunk-dependency graph it builds is acyclic
(witnessed by any ranking of chunk ids that decreases along
dependencies), the order is topological: every dependency of a chunk
appears strictly earlier in the output.  The cycle-break branch
(`max(..., key=priority)`) is a fixed function of its input, so the model
itself witnesses its determinism. -/
theorem C7_chunk_ordering (chunks : List ContextChunk)
    (hnd : (chunks.map ContextChunk.chunk_id).Nodup) :
    (optimizeChunkOrdering chunks).Perm chunks
    ∧ ∀ rank : String → ℕ,
        (∀ c ∈ chunks, ∀ d ∈ chunkDepsTable chunks c.chunk_id, rank d < rank c.chunk_id) →
        ∀ k, ∀ hk : k < (optimizeChunkOrdering chunks).length,
          ∀ d ∈ chunkDepsTable chunks
              ((optimizeChunkOrdering chunks).get ⟨k, hk⟩).chunk_id,
            ∃ m, ∃ hmk : m < k,
              ((optimizeChunkOrdering chunks).get ⟨m, Nat.lt_trans hmk hk⟩).chunk_id = d := by
  constructor
  · exact orderLoop_perm (chunkDepsTable chunks) chunks.length chunks [] le_rfl hnd
  · intro rank hrank k hk d hd
    have h := orderLoop_topo (chunkDepsTable chunks) chunks rank hrank
      (fun c _ d' hd' => chunkDepsTable_closed chunks c.chunk_id d' hd')
      chunks.length chunks [] le_rfl (fun x hx => hx) (fun o ho => Or.inr ho) k hk d hd
    rcases h with h1 | h2
    · cases h1
    · exact h2

def chC7a : ContextChunk :=
  { chunk_id := "cluster_0", files := ["main.py"], content_summary := ""
    token_estimate := mkTokenEstimate 100 10 5 115, priority_score := 5
    dependencies := [], context_type := "core" }

def chC7b : ContextChunk :=
  { chunk_id := "cluster_1", files := ["helpers.py"], content_summary := ""
    token_estimate := mkTokenEstimate 60 5 2 67, priority_score := 3
    dependencies := [], context_type := "supporting" }

theorem C7_chunk_ordering_witness :
    (optimizeChunkOrdering [chC7a, chC7b]).Perm [chC7a, chC7b] :=
  (C7_chunk_ordering [chC7a, chC7b] (by decide)).1

/-! Section: Claim C8: progressive loading phases -/

/-- The per-phase properties, phrased positionally: the `j`-th phase (from
`base`) carries `attention_weight = decay ^ j`, `phase = j + 1`, and its
recorded total exceeds the cap only if it holds a single chunk. -/
def PhaseOK (decay : ℚ) (cap : ℤ) : ℕ → List LoadingPhase → Prop
  | _, [] => True
  | j, p :: rest =>
      p.attention_weight = decay ^ j ∧ p.phase = j + 1 ∧
        (cap < p.total_tokens → p.chunks.length = 1) ∧ PhaseOK decay cap (j + 1) rest

theorem phaseOK_append_one (decay : ℚ) (cap : ℤ) :
    ∀ (l : List LoadingPhase) (base : ℕ) (p : LoadingPhase),
      PhaseOK decay cap base l →
      p.attention_weight = decay ^ (base + l.length) →
      p.phase = base + l.length + 1 →
      (cap < p.total_tokens → p.chunks.length = 1) →
      PhaseOK decay cap base (l ++ [p]) := by
  intro l
  induction l with
  | nil =>
    intro base p _ h1 h2 h3
    exact ⟨by simpa using h1, by simpa using h2, h3, trivial⟩
  | cons q rest ih =>
    intro base p hOK h1 h2 h3
    obtain ⟨hq1, hq2, hq3, hrest⟩ := hOK
    refine ⟨hq1, hq2, hq3, ?_⟩
    have harr : base + (q :: rest).length = (base + 1) + rest.length := by
      simp only [List.length_cons]; omega
    exact ih (base + 1) p hrest (by rw [h1, harr]) (by rw [h2, harr]) h3

theorem phaseOK_get (decay : ℚ) (cap : ℤ) :
    ∀ (l : List LoadingPhase) (base : ℕ), PhaseOK decay cap base l →
      ∀ j, ∀ hj : j < l.length,
        (l.get ⟨j, hj⟩).attention_weight = decay ^ (base + j) ∧
        (l.get ⟨j, hj⟩).phase = base + j + 1 ∧
        (cap < (l.get ⟨j, hj⟩).total_tokens → (l.get ⟨j, hj⟩).chunks.length = 1) := by
  intro l
  induction l with
  | nil => intro base _ j hj; simp at hj
  | cons p rest ih =>
    intro base hOK j hj
    obtain ⟨h1, h2, h3, h4⟩ := hOK
    cases j with
    | zero => exact ⟨by simpa using h1, by simpa using h2, h3⟩
    | succ m =>
      have hm : m < rest.length := Nat.lt_of_succ_lt_succ (by simpa using hj)
      have hmain := ih (base + 1) h4 m hm
      have harr : base + 1 + m = base + (m + 1) := by omega
      rw [harr] at hmain
      exact hmain

theorem phasesLoop_phaseOK (allChunks : List ContextChunk) (cap : ℤ) (decay : ℚ) :
    ∀ (cs : List ContextChunk) (curC : List String) (curT : ℤ) (num : ℕ)
      (phases : List LoadingPhase),
      num = phases.length + 1 →
      (cap < curT → curC.length = 1) →
      PhaseOK decay cap 0 phases →
      PhaseOK decay cap 0 (phasesLoop allChunks cap decay cs curC curT num phases) := by
  intro cs
  induction cs with
  | nil =>
    intro curC curT num phases hnum hcur hOK
    simp only [phasesLoop]
    split
    · exact hOK
    · refine phaseOK_append_one decay cap phases 0 _ hOK ?_ ?_ hcur
      · simp only [mkPhase, hnum]
        norm_num
      · simp only [mkPhase, hnum]
        omega
  | cons ch cs ihcs =>
    intro curC curT num phases hnum hcur hOK
    simp only [phasesLoop]
    split
    · rename_i hfits
      refine ihcs _ _ _ _ hnum ?_ hOK
      intro hlt
      exact absurd hlt (not_lt.2 hfits)
    · split
      · exact ihcs _ _ _ _ hnum (fun _ => rfl) hOK
      · rename_i hfull hnonempty
        refine ihcs _ _ _ _ ?_ (fun _ => rfl) ?_
        · simp only [List.length_append, List.length_cons, List.length_nil]
          omega
        · refine phaseOK_append_one decay cap phases 0 _ hOK ?_ ?_ hcur
          · simp only [mkPhase, hnum]
            norm_num
          · simp only [mkPhase, hnum]
            omega

/-- C8 counterexample: a single chunk of 20000 estimated tokens under
the `generic` profile (`max_tokens = 32000`, cap `32000 // 3 = 10666`)
produces a loading phase whose cumulative token cost exceeds
`max_tokens/3`: an oversized chunk starts a fresh phase with no cap
check (llm_optimization.py lines 533-535). -/
theorem C8_loading_phases_counterexample :
    ∃ p ∈ createLoadingPhases
        [{ chunk_id := "cluster_0", files := ["bigfile.py"], content_summary := ""
           token_estimate := mkTokenEstimate 18000 1500 500 20000, priority_score := 10
           dependencies := [], context_type := "core" }] genericProfile,
      ((genericProfile.max_tokens : ℤ) / 3) < p.total_tokens := by
  decide

/-- C8 (amended): for every ordered chunk list and model profile,
every emitted loading phase carries
`attention_weight = attention_decay ^ phase_index` (phases counted from
zero) and `phase = phase_index + 1`; and its cumulative token cost is at
most `max_tokens // 3` *except* when the phase consists of a single chunk
whose own token cost already exceeds that cap — the only way the code can
exceed the per-phase budget. -/
theorem C8_loading_phases_amended (chunks : List ContextChunk) (profile : LLMProfile) :
    ∀ j, ∀ hj : j < (createLoadingPhases chunks profile).length,
      ((createLoadingPhases chunks profile).get ⟨j, hj⟩).attention_weight =
        profile.attention_decay ^ j
      ∧ ((createLoadingPhases chunks profile).get ⟨j, hj⟩).phase = j + 1
      ∧ ((profile.max_tokens : ℤ) / 3 <
            ((createLoadingPhases chunks profile).get ⟨j, hj⟩).total_tokens →
          ((createLoadingPhases chunks profile).get ⟨j, hj⟩).chunks.length = 1) := by
  intro j hj
  have hcap : (0 : ℤ) ≤ (profile.max_tokens : ℤ) / 3 := by
    have h0 : (0 : ℤ) ≤ (profile.max_tokens : ℤ) := Int.natCast_nonneg _
    omega
  have hOK := phasesLoop_phaseOK chunks ((profile.max_tokens : ℤ) / 3)
    profile.attention_decay chunks [] 0 1 [] rfl
    (fun h => absurd h (not_lt.2 hcap)) trivial
  have hres := phaseOK_get profile.attention_decay ((profile.max_tokens : ℤ) / 3)
    (createLoadingPhases chunks profile) 0 hOK j hj
  simpa using hres

theorem C8_loading_phases_amended_witness :
    ((createLoadingPhases
        [{ chunk_id := "cluster_0", files := ["small.py"], content_summary := ""
           token_estimate := mkTokenEstimate 800 100 40 940, priority_score := 2
           dependencies := [], context_type := "core" }] genericProfile).get
      ⟨0, by decide⟩).attention_weight = genericProfile.attention_decay ^ 0 :=
  (C8_loading_phases_amended
    [{ chunk_id := "cluster_0", files := ["small.py"], content_summary := ""
       token_estimate := mkTokenEstimate 800 100 40 940, priority_score := 2
       dependencies := [], context_type := "core" }] genericProfile 0 (by decide)).1
